import Mathlib

/-!
Verification of the regex-to-NFA core of the Regex-Automata repository
(`src/App.tsx`): the concatenation normalizer `insertConcat`, the
shunting-yard translator `toPostfix`, the Thompson-construction compiler
`compileRegexToNFA`, and the epsilon-closure simulator of the
`RegexAutomata` component.  States are embedded as an arena (a list of
state records indexed by the monotonically assigned integer ids), and the
in-place mutations of the TypeScript code become explicit arena updates.
-/

namespace RegexAutomata

/-- ASCII alphanumeric test, embedding the regex `[a-zA-Z0-9]` used by the
source. -/
def isAlnumChar (c : Char) : Bool :=
  (97 ≤ c.toNat && c.toNat ≤ 122) || (65 ≤ c.toNat && c.toNat ≤ 90) ||
    (48 ≤ c.toNat && c.toNat ≤ 57)

/-- Left-hand class of `insertConcat`, embedding `[a-zA-Z0-9*)]`. -/
def concatLeft (c : Char) : Bool := isAlnumChar c || c == '*' || c == ')'

/-- Right-hand class of `insertConcat`, embedding `[a-zA-Z0-9(]`. -/
def concatRight (c : Char) : Bool := isAlnumChar c || c == '('

/-- Embedding of `insertConcat` from `src/App.tsx`: walk the pattern and
append a `.` after a character whenever it and its successor fall in the
two classes. -/
def insertConcat : List Char → List Char
  | [] => []
  | [c] => [c]
  | c1 :: c2 :: rest =>
    if concatLeft c1 && concatRight c2 then c1 :: '.' :: insertConcat (c2 :: rest)
    else c1 :: insertConcat (c2 :: rest)

/-- The precedence record `{ '*': 3, '.': 2, '|': 1 }`; `none` models a
JavaScript `undefined` lookup. -/
def precOf (c : Char) : Option Nat :=
  if c == '*' then some 3 else if c == '.' then some 2
  else if c == '|' then some 1 else none

/-- The loop guard `precedence[top] >= precedence[char]`: any comparison
with `undefined` is false in JavaScript. -/
def popCond (top c : Char) : Bool :=
  match precOf top, precOf c with
  | some a, some b => b ≤ a
  | _, _ => false

/-- One iteration of the `toPostfix` character loop, acting on the pair
(output so far, operator stack with its top in front). -/
def shuntStep : List Char × List Char → Char → List Char × List Char
  | (out, st), c =>
    if isAlnumChar c then (out ++ [c], st)
    else if c == '(' then (out, c :: st)
    else if c == ')' then
      (out ++ st.takeWhile (fun t => t != '('), (st.dropWhile (fun t => t != '(')).drop 1)
    else
      (out ++ st.takeWhile (fun t => popCond t c), c :: st.dropWhile (fun t => popCond t c))

/-- The character loop of `toPostfix` followed by the final drain of the
operator stack. -/
def shuntRun (p : List Char) : List Char :=
  let r := p.foldl shuntStep ([], [])
  r.1 ++ r.2

/-- Embedding of `toPostfix` from `src/App.tsx`: normalize with
`insertConcat`, then run the shunting-yard loop. -/
def toPostfix (p : List Char) : List Char := shuntRun (insertConcat p)

/-- One NFA state: its id, its transition record (a symbol-keyed list of
successor-id lists) and its accept flag. -/
structure StateData where
  id : Nat
  transitions : List (Char × List Nat)
  isAccept : Bool
deriving DecidableEq, Repr

/-- Embedding of `State.addTransition`: append to the successor list of an
existing key, or add a fresh key at the end. -/
def addTransitionTo (ts : List (Char × List Nat)) (c : Char) (j : Nat) :
    List (Char × List Nat) :=
  if ts.any (fun p => p.1 == c) then
    ts.map (fun p => if p.1 == c then (p.1, p.2 ++ [j]) else p)
  else ts ++ [(c, [j])]

/-- The arena of all states created so far, in id order (ids are assigned
by the monotonically increasing counter, reset for each compilation). -/
abbrev Arena := List StateData

/-- Dereference a state id, as the TypeScript object reference does. -/
def findState (a : Arena) (i : Nat) : Option StateData :=
  a.find? (fun s => s.id == i)

/-- Embedding of the record lookup `s.transitions[c]` (absent key gives
the empty successor list). -/
def lookupTrans (ts : List (Char × List Nat)) (c : Char) : List Nat :=
  match ts.find? (fun p => p.1 == c) with
  | some p => p.2
  | none => []

/-- Successor ids of state `i` on symbol `c`. -/
def succs (a : Arena) (i : Nat) (c : Char) : List Nat :=
  match findState a i with
  | some s => lookupTrans s.transitions c
  | none => []

/-- Embedding of the mutation `state.isAccept = b` on the state with id
`i`. -/
def setAccept (a : Arena) (i : Nat) (b : Bool) : Arena :=
  a.map (fun s => if s.id == i then ⟨s.id, s.transitions, b⟩ else s)

/-- Embedding of the mutation `state.addTransition(c, next)` on the state
with id `i`. -/
def addTrans (a : Arena) (i : Nat) (c : Char) (j : Nat) : Arena :=
  a.map (fun s => if s.id == i then ⟨s.id, addTransitionTo s.transitions c j, s.isAccept⟩ else s)

/-- Embedding of `new State()`: the fresh state receives the next counter
value, which is the current arena length. -/
def newState (a : Arena) : Arena := a ++ [⟨a.length, [], false⟩]

/-- An NFA fragment `(start, end)` as pushed on the compiler stack. -/
structure Frag where
  s : Nat
  e : Nat
deriving DecidableEq, Repr

/-- The compiler's state: the arena of created states and the fragment
stack (top in front). -/
structure CompSt where
  arena : Arena
  stack : List Frag
deriving DecidableEq, Repr

/-- One iteration of the `compileRegexToNFA` token loop.  `none` models
the TypeScript exception thrown by dereferencing the `undefined` result
of popping an empty stack, which the surrounding `try` turns into a
`null` compilation result. -/
def compileStep (st : CompSt) (c : Char) : Option CompSt :=
  if c == '.' then
    match st.stack with
    | n2 :: n1 :: rest =>
      some ⟨addTrans (setAccept st.arena n1.e false) n1.e 'ε' n2.s, ⟨n1.s, n2.e⟩ :: rest⟩
    | _ => none
  else if c == '|' then
    match st.stack with
    | n2 :: n1 :: rest =>
      let k := st.arena.length
      let a1 := newState (newState st.arena)
      let a2 := addTrans (addTrans a1 k 'ε' n1.s) k 'ε' n2.s
      let a3 := setAccept (setAccept a2 n1.e false) n2.e false
      let a4 := addTrans (addTrans a3 n1.e 'ε' (k+1)) n2.e 'ε' (k+1)
      some ⟨a4, ⟨k, k+1⟩ :: rest⟩
    | _ => none
  else if c == '*' then
    match st.stack with
    | n1 :: rest =>
      let k := st.arena.length
      let a1 := newState (newState st.arena)
      let a2 := addTrans (addTrans a1 k 'ε' n1.s) k 'ε' (k+1)
      let a3 := setAccept a2 n1.e false
      let a4 := addTrans (addTrans a3 n1.e 'ε' n1.s) n1.e 'ε' (k+1)
      some ⟨a4, ⟨k, k+1⟩ :: rest⟩
    | _ => none
  else
    let k := st.arena.length
    some ⟨addTrans (newState (newState st.arena)) k c (k+1), ⟨k, k+1⟩ :: st.stack⟩

/-- The token loop of `compileRegexToNFA` over the postfix stream,
starting from the reset counter and empty stack. -/
def runCompile (p : List Char) : Option CompSt :=
  (toPostfix p).foldlM compileStep ⟨[], []⟩

/-- Embedding of `compileRegexToNFA`: after the loop, pop the final
fragment (`null` when the stack is empty), mark its end accepting and
return (arena, start id, end id). -/
def compileRegexToNFA (p : List Char) : Option (Arena × Nat × Nat) :=
  match runCompile p with
  | none => none
  | some st =>
    match st.stack with
    | [] => none
    | f :: _ => some (setAccept st.arena f.e true, f.s, f.e)

/-- Epsilon successors of a state, the `s.transitions['ε']` lookup of the
simulator. -/
def epsSucc (a : Arena) (i : Nat) : List Nat := succs a i 'ε'

/-- Embedding of the simulator's recursive `addState`: skip an
already-visited state, otherwise insert it and recurse over its epsilon
successors.  The fuel argument is only the termination device of the
embedding; `addState_fuel_stable` shows `a.length` fuel already reaches
the fixed point. -/
def addState (a : Arena) : Nat → Nat → List Nat → List Nat
  | 0, _, set => set
  | fuel+1, i, set =>
    if i ∈ set then set
    else (epsSucc a i).foldl (fun acc j => addState a fuel j acc) (set ++ [i])

/-- One character step of the simulator: collect the `c`-successors of
every active state, inserting each through `addState` (which also takes
its epsilon closure). -/
def stepChar (a : Arena) (fuel : Nat) (cur : List Nat) (c : Char) : List Nat :=
  cur.foldl (fun acc i => (succs a i c).foldl (fun acc2 j => addState a fuel j acc2) acc) []

/-- The accept flag of the state with id `i`. -/
def isAcceptId (a : Arena) (i : Nat) : Bool :=
  match findState a i with
  | some s => s.isAccept
  | none => false

/-- Embedding of the simulation effect in `RegexAutomata`, parametrized
by the closure fuel: an empty test string short-circuits to the active
set `[start]` and verdict `false`; otherwise start from the closure of
the start state, step through the characters, and accept iff some final
active state is accepting. -/
def simulateFuel (a : Arena) (startId : Nat) (fuel : Nat) (input : List Char) :
    List Nat × Bool :=
  if input.isEmpty then ([startId], false)
  else
    let final := input.foldl (stepChar a fuel) (addState a fuel startId [])
    (final, final.any (isAcceptId a))

/-- The simulator with its canonical fuel, the number of states of the
automaton. -/
def simulate (a : Arena) (startId : Nat) (input : List Char) : List Nat × Bool :=
  simulateFuel a startId a.length input

/-- Compile a pattern and run the simulator on an input (the component
does nothing when compilation fails). -/
def simOnCompiled (p input : List Char) : Option (List Nat × Bool) :=
  match compileRegexToNFA p with
  | none => none
  | some r => some (simulate r.1 r.2.1 input)

/-- The epsilon closure of the start state of a compiled automaton,
computed by the simulator's `addState` with the canonical fuel. -/
def closureOfStart (r : Arena × Nat × Nat) : List Nat :=
  addState r.1 r.1.length r.2.1 []

/-- The behavior the specification claims for an empty test string:
active set equal to the epsilon closure of the start state, verdict true
iff that closure contains an accepting state.  This definition follows
the spec's words, to be compared with `simulate` on the empty input. -/
def specEmptyStringSim (p : List Char) : Option (List Nat × Bool) :=
  match compileRegexToNFA p with
  | none => none
  | some r => some (closureOfStart r, (closureOfStart r).any (isAcceptId r.1))

/-- Whether the final active set after running a compiled pattern on an
input contains an accepting state. -/
def finalActiveAccepting (p input : List Char) : Option Bool :=
  match compileRegexToNFA p with
  | none => none
  | some r => some ((simulate r.1 r.2.1 input).1.any (isAcceptId r.1))

/-! ### Specification-side definitions for the normalizer and translator

These follow the wording of the spec claims, to be compared with the
source-derived `insertConcat` and `shuntRun`. -/

/-- The claim's insertion condition and result: the input string with a
`.` inserted between positions `i` and `i+1` exactly when the character
at `i` is alphanumeric, `*` or `)` and the character at `i+1` is
alphanumeric or `(`; nothing inserted at the boundaries, no other
changes. -/
def insertConcatSpec : List Char → List Char
  | [] => []
  | c :: rest =>
    c :: ((c :: rest).zip rest).flatMap
      (fun ab => if concatLeft ab.1 && concatRight ab.2 then ['.', ab.2] else [ab.2])

/-- Precedence as worded by the claim: `*` highest, then `.`, then `|`;
other characters carry no operator precedence. -/
def precSpec (c : Char) : Option Nat :=
  if c = '*' then some 3 else if c = '.' then some 2
  else if c = '|' then some 1 else none

/-- The claim's handling of `)`: pop and emit operators one at a time
until the matching `(` is found, which is discarded; returns the emitted
operators and the remaining stack. -/
def popUntilParen : List Char → List Char × List Char
  | [] => ([], [])
  | t :: rest =>
    if t = '(' then ([], rest)
    else
      let r := popUntilParen rest
      (t :: r.1, r.2)

/-- The claim's handling of an operator: pop and emit every stacked
operator whose precedence is greater than or equal to the incoming one's,
stopping at the first stack entry that is not such an operator. -/
def popGE (c : Char) : List Char → List Char × List Char
  | [] => ([], [])
  | t :: rest =>
    if (match precSpec t, precSpec c with
        | some a, some b => decide (b ≤ a)
        | _, _ => false) then
      let r := popGE c rest
      (t :: r.1, r.2)
    else ([], t :: rest)

/-- The translator step as worded by the claim: emit alphanumerics
immediately, push `(`, on `)` pop until the discarded matching `(`, and
on any other operator pop all stacked operators of greater-or-equal
precedence before pushing it. -/
def shuntStepSpec : List Char × List Char → Char → List Char × List Char
  | (out, st), c =>
    if isAlnumChar c then (out ++ [c], st)
    else if c = '(' then (out, c :: st)
    else if c = ')' then
      let r := popUntilParen st
      (out ++ r.1, r.2)
    else
      let r := popGE c st
      (out ++ r.1, c :: r.2)

/-- The claim's whole translator: run the step over the input and emit
the remaining stack in pop order at end of input. -/
def shuntRunSpec (p : List Char) : List Char :=
  let r := p.foldl shuntStepSpec ([], [])
  r.1 ++ r.2

/-! ### Arena machinery -/

/-- There is a transition labeled `c` from state `i` to state `j`. -/
def hasEdge (a : Arena) (i : Nat) (c : Char) (j : Nat) : Prop := j ∈ succs a i c

instance hasEdgeDecidable (a : Arena) (i : Nat) (c : Char) (j : Nat) :
    Decidable (hasEdge a i c j) := by
  unfold hasEdge
  infer_instance

/-- Some transition (of any label) leads from `i` to `j`. -/
def stepRel (a : Arena) (i j : Nat) : Prop := ∃ c, hasEdge a i c j

/-- Graph reachability along transitions. -/
def Reach (a : Arena) : Nat → Nat → Prop := Relation.ReflTransGen (stepRel a)

/-- The states of the arena carry exactly the ids `k, k+1, ...` in
order. -/
def idsFrom : Nat → Arena → Bool
  | _, [] => true
  | k, s :: rest => (s.id == k) && idsFrom (k+1) rest

/-- The states of the arena carry exactly the ids `0, 1, ...` in order,
as the id counter assigns them. -/
def IdsOK (a : Arena) : Prop := idsFrom 0 a = true

/-- Every transition target is a state of the arena. -/
def WFArena (a : Arena) : Prop :=
  ∀ s ∈ a, ∀ p ∈ s.transitions, ∀ j ∈ p.2, j < a.length

theorem length_setAccept (a : Arena) (i : Nat) (b : Bool) :
    (setAccept a i b).length = a.length := by
  simp [setAccept]

theorem length_addTrans (a : Arena) (i : Nat) (c : Char) (j : Nat) :
    (addTrans a i c j).length = a.length := by
  simp [addTrans]

theorem length_newState (a : Arena) : (newState a).length = a.length + 1 := by
  simp [newState]

theorem findState_id {a : Arena} {i : Nat} {s : StateData} (h : findState a i = some s) :
    s.id = i := by
  have := List.find?_some h
  simpa using this

theorem findState_map (a : Arena) (g : StateData → StateData) (hg : ∀ s, (g s).id = s.id)
    (i : Nat) : findState (a.map g) i = (findState a i).map g := by
  rw [findState, List.find?_map, findState]
  have hpre : ((fun s => s.id == i) ∘ g) = (fun s : StateData => s.id == i) := by
    funext s
    simp [Function.comp, hg]
  rw [hpre]

theorem setAccept_id_pres (i : Nat) (b : Bool) :
    ∀ s : StateData, ((fun s : StateData => if s.id == i then ⟨s.id, s.transitions, b⟩ else s) s).id = s.id := by
  intro s
  by_cases h : (s.id == i) = true <;> simp [h]

theorem addTrans_id_pres (i : Nat) (c : Char) (j : Nat) :
    ∀ s : StateData,
      ((fun s : StateData => if s.id == i then ⟨s.id, addTransitionTo s.transitions c j, s.isAccept⟩ else s) s).id = s.id := by
  intro s
  by_cases h : (s.id == i) = true <;> simp [h]

theorem succs_setAccept (a : Arena) (i : Nat) (b : Bool) (i' : Nat) (c : Char) :
    succs (setAccept a i b) i' c = succs a i' c := by
  rw [succs, succs, setAccept, findState_map a _ (setAccept_id_pres i b) i']
  cases h : findState a i' with
  | none => rfl
  | some s =>
    by_cases hid : s.id = i <;> simp [hid]

theorem isAcceptId_setAccept_self (a : Arena) (i : Nat) (b : Bool)
    (h : (findState a i).isSome = true) : isAcceptId (setAccept a i b) i = b := by
  rw [isAcceptId, setAccept, findState_map a _ (setAccept_id_pres i b) i]
  cases hf : findState a i with
  | none => rw [hf] at h; simp at h
  | some s =>
    have hid : s.id = i := findState_id hf
    simp [hid]

theorem isAcceptId_setAccept_false_self (a : Arena) (i : Nat) :
    isAcceptId (setAccept a i false) i = false := by
  rw [isAcceptId, setAccept, findState_map a _ (setAccept_id_pres i false) i]
  cases hf : findState a i with
  | none => rfl
  | some s =>
    have hid : s.id = i := findState_id hf
    simp [hid]

theorem isAcceptId_setAccept_other (a : Arena) (i : Nat) (b : Bool) (i' : Nat)
    (h : i' ≠ i) : isAcceptId (setAccept a i b) i' = isAcceptId a i' := by
  rw [isAcceptId, setAccept, findState_map a _ (setAccept_id_pres i b) i', isAcceptId]
  cases hf : findState a i' with
  | none => rfl
  | some s =>
    have hid : s.id = i' := findState_id hf
    have hne : ¬s.id = i := by omega
    simp [hne]

theorem isAcceptId_addTrans (a : Arena) (i : Nat) (c : Char) (j : Nat) (i' : Nat) :
    isAcceptId (addTrans a i c j) i' = isAcceptId a i' := by
  rw [isAcceptId, addTrans, findState_map a _ (addTrans_id_pres i c j) i', isAcceptId]
  cases hf : findState a i' with
  | none => rfl
  | some s =>
    by_cases hid : s.id = i <;> simp [hid]

theorem findState_append (a b : Arena) (i : Nat) :
    findState (a ++ b) i = (findState a i).or (findState b i) :=
  List.find?_append

theorem succs_newState (a : Arena) (i : Nat) (c : Char) :
    succs (newState a) i c = succs a i c := by
  rw [succs, succs, newState, findState_append]
  cases h : findState a i with
  | some s => simp
  | none =>
    simp only [Option.none_or]
    rw [findState]
    by_cases hid : a.length = i
    · subst hid
      rw [List.find?_cons_of_pos _ (by simp)]
      rfl
    · rw [List.find?_cons_of_neg _ (by simp [hid])]
      rfl

theorem isAcceptId_newState (a : Arena) (i : Nat) :
    isAcceptId (newState a) i = isAcceptId a i := by
  rw [isAcceptId, isAcceptId, newState, findState_append]
  cases h : findState a i with
  | some s => simp
  | none =>
    simp only [Option.none_or]
    rw [findState]
    by_cases hid : a.length = i
    · subst hid
      rw [List.find?_cons_of_pos _ (by simp)]
    · rw [List.find?_cons_of_neg _ (by simp [hid])]
      rfl

theorem lookupTrans_addTransitionTo_same (ts : List (Char × List Nat)) (c : Char) (j : Nat) :
    lookupTrans (addTransitionTo ts c j) c = lookupTrans ts c ++ [j] := by
  rw [addTransitionTo]
  by_cases h : (ts.any fun p => p.1 == c) = true
  · rw [if_pos h, lookupTrans, List.find?_map]
    have hpre : ((fun p : Char × List Nat => p.1 == c) ∘
        (fun p : Char × List Nat => if p.1 == c then (p.1, p.2 ++ [j]) else p)) =
        (fun p : Char × List Nat => p.1 == c) := by
      funext p
      by_cases hp : (p.1 == c) = true <;> simp [Function.comp, hp]
    rw [hpre]
    obtain ⟨x, hx, hpx⟩ := List.any_eq_true.mp h
    cases hfind : ts.find? (fun p => p.1 == c) with
    | none =>
      rw [List.find?_eq_none] at hfind
      exact absurd hpx (hfind x hx)
    | some p0 =>
      have hp0 : p0.1 = c := by simpa using List.find?_some hfind
      rw [lookupTrans, hfind]
      simp [hp0]
  · rw [if_neg h, lookupTrans, List.find?_append]
    have hnone : ts.find? (fun p => p.1 == c) = none := by
      rw [List.find?_eq_none]
      intro x hx hpx
      exact h (List.any_eq_true.mpr ⟨x, hx, hpx⟩)
    rw [hnone, lookupTrans, hnone]
    simp only [Option.none_or]
    rw [List.find?_cons_of_pos _ (by simp)]
    rfl

theorem lookupTrans_addTransitionTo_other (ts : List (Char × List Nat)) (c c' : Char) (j : Nat)
    (hne : c' ≠ c) : lookupTrans (addTransitionTo ts c j) c' = lookupTrans ts c' := by
  rw [addTransitionTo]
  by_cases h : (ts.any fun p => p.1 == c) = true
  · rw [if_pos h, lookupTrans, List.find?_map]
    have hpre : ((fun p : Char × List Nat => p.1 == c') ∘
        (fun p : Char × List Nat => if p.1 == c then (p.1, p.2 ++ [j]) else p)) =
        (fun p : Char × List Nat => p.1 == c') := by
      funext p
      by_cases hp : (p.1 == c) = true
      · have : (p.1 == c') = false := by
          simp at hp ⊢
          rw [hp]
          exact fun hh => hne hh.symm
        simp [Function.comp, hp, this]
      · simp [Function.comp, hp]
    rw [hpre, lookupTrans]
    cases hfind : ts.find? (fun p => p.1 == c') with
    | none => rfl
    | some p0 =>
      have hp0 : p0.1 = c' := by simpa using List.find?_some hfind
      have hnc : ¬p0.1 = c := by
        rw [hp0]
        exact hne
      simp [hnc]
  · rw [if_neg h, lookupTrans, List.find?_append, lookupTrans]
    have hsing : ([((c, [j]) : Char × List Nat)].find? fun p => p.1 == c') = none := by
      rw [List.find?_cons_of_neg _ (by simp; exact fun hh => hne hh.symm)]
      rfl
    rw [hsing]
    cases hfind : ts.find? (fun p => p.1 == c') <;> rfl

theorem succs_addTrans_same (a : Arena) (i : Nat) (c : Char) (j : Nat)
    (h : (findState a i).isSome = true) :
    succs (addTrans a i c j) i c = succs a i c ++ [j] := by
  rw [succs, succs, addTrans, findState_map a _ (addTrans_id_pres i c j) i]
  cases hf : findState a i with
  | none => rw [hf] at h; simp at h
  | some s =>
    have hid : s.id = i := findState_id hf
    simp [hid, lookupTrans_addTransitionTo_same]

theorem succs_addTrans_ne_state (a : Arena) (i i' : Nat) (c c' : Char) (j : Nat)
    (hne : i' ≠ i) : succs (addTrans a i c j) i' c' = succs a i' c' := by
  rw [succs, succs, addTrans, findState_map a _ (addTrans_id_pres i c j) i']
  cases hf : findState a i' with
  | none => rfl
  | some s =>
    have hid : s.id = i' := findState_id hf
    have hns : ¬s.id = i := by omega
    simp [hns]

theorem succs_addTrans_ne_char (a : Arena) (i i' : Nat) (c c' : Char) (j : Nat)
    (hne : c' ≠ c) : succs (addTrans a i c j) i' c' = succs a i' c' := by
  rw [succs, succs, addTrans, findState_map a _ (addTrans_id_pres i c j) i']
  cases hf : findState a i' with
  | none => rfl
  | some s =>
    by_cases hid : s.id = i
    · simp [hid, lookupTrans_addTransitionTo_other _ _ _ _ hne]
    · simp [hid]

theorem findState_isSome_of_mem_succs {a : Arena} {i : Nat} {c : Char} {k : Nat}
    (h : k ∈ succs a i c) : (findState a i).isSome = true := by
  rw [succs] at h
  cases hf : findState a i with
  | none => rw [hf] at h; simp at h
  | some s => rfl

theorem succs_addTrans_superset (a : Arena) (i i' : Nat) (c c' : Char) (j k : Nat)
    (h : k ∈ succs a i' c') : k ∈ succs (addTrans a i c j) i' c' := by
  by_cases h1 : i' = i
  · by_cases h2 : c' = c
    · subst h1
      subst h2
      rw [succs_addTrans_same a i' c' j (findState_isSome_of_mem_succs h)]
      exact List.mem_append_left _ h
    · rw [succs_addTrans_ne_char a i i' c c' j h2]
      exact h
  · rw [succs_addTrans_ne_state a i i' c c' j h1]
    exact h

theorem hasEdge_newState {a : Arena} {i : Nat} {c : Char} {j : Nat}
    (h : hasEdge a i c j) : hasEdge (newState a) i c j := by
  rw [hasEdge, succs_newState]
  exact h

theorem hasEdge_setAccept {a : Arena} {i0 : Nat} {b : Bool} {i : Nat} {c : Char} {j : Nat}
    (h : hasEdge a i c j) : hasEdge (setAccept a i0 b) i c j := by
  rw [hasEdge, succs_setAccept]
  exact h

theorem hasEdge_addTrans {a : Arena} {i0 : Nat} {c0 : Char} {j0 : Nat} {i : Nat} {c : Char}
    {j : Nat} (h : hasEdge a i c j) : hasEdge (addTrans a i0 c0 j0) i c j :=
  succs_addTrans_superset a i0 i c0 c j0 j h

theorem hasEdge_addTrans_new {a : Arena} {i : Nat} (h : (findState a i).isSome = true)
    (c : Char) (j : Nat) : hasEdge (addTrans a i c j) i c j := by
  rw [hasEdge, succs_addTrans_same a i c j h]
  exact List.mem_append_right _ (by simp)

theorem idsFrom_append : ∀ (a b : Arena) (k : Nat),
    idsFrom k (a ++ b) = (idsFrom k a && idsFrom (k + a.length) b) := by
  intro a
  induction a with
  | nil =>
    intro b k
    simp [idsFrom]
  | cons s rest ih =>
    intro b k
    show ((s.id == k) && idsFrom (k+1) (rest ++ b)) =
      (((s.id == k) && idsFrom (k+1) rest) && idsFrom (k + (rest.length + 1)) b)
    rw [ih b (k+1), Bool.and_assoc]
    have : k + 1 + rest.length = k + (rest.length + 1) := by omega
    rw [this]

theorem idsFrom_map (g : StateData → StateData) (hg : ∀ s, (g s).id = s.id) :
    ∀ (a : Arena) (k : Nat), idsFrom k (a.map g) = idsFrom k a := by
  intro a
  induction a with
  | nil => intro k; rfl
  | cons s rest ih =>
    intro k
    show (((g s).id == k) && idsFrom (k+1) (rest.map g)) = ((s.id == k) && idsFrom (k+1) rest)
    rw [hg, ih]

theorem idsFrom_mem_lt : ∀ (a : Arena) (k : Nat), idsFrom k a = true →
    ∀ s ∈ a, k ≤ s.id ∧ s.id < k + a.length := by
  intro a
  induction a with
  | nil =>
    intro k h s hs
    cases hs
  | cons x rest ih =>
    intro k h s hs
    have h' : (x.id == k) = true ∧ idsFrom (k+1) rest = true := by
      rw [← Bool.and_eq_true]
      exact h
    have hx : x.id = k := by simpa using h'.1
    cases hs with
    | head =>
      constructor
      · omega
      · simp
        omega
    | tail _ hs2 =>
      have hb := ih (k+1) h'.2 s hs2
      constructor
      · omega
      · simp
        omega

theorem ids_setAccept {a : Arena} (h : IdsOK a) (i : Nat) (b : Bool) :
    IdsOK (setAccept a i b) := by
  rw [IdsOK, setAccept, idsFrom_map _ (setAccept_id_pres i b)]
  exact h

theorem ids_addTrans {a : Arena} (h : IdsOK a) (i : Nat) (c : Char) (j : Nat) :
    IdsOK (addTrans a i c j) := by
  rw [IdsOK, addTrans, idsFrom_map _ (addTrans_id_pres i c j)]
  exact h

theorem ids_newState {a : Arena} (h : IdsOK a) : IdsOK (newState a) := by
  rw [IdsOK, newState, idsFrom_append]
  rw [IdsOK] at h
  simp [h, idsFrom]

theorem idsFrom_findState : ∀ (a : Arena) (k i : Nat), idsFrom k a = true →
    k ≤ i → i < k + a.length → (findState a i).isSome = true := by
  intro a
  induction a with
  | nil =>
    intro k i h h1 h2
    simp at h2
    omega
  | cons x rest ih =>
    intro k i h h1 h2
    have h' : (x.id == k) = true ∧ idsFrom (k+1) rest = true := by
      rw [← Bool.and_eq_true]
      exact h
    have hx : x.id = k := by simpa using h'.1
    by_cases hi : i = k
    · subst hi
      rw [findState, List.find?_cons_of_pos _ (by simp [hx])]
      rfl
    · rw [findState, List.find?_cons_of_neg _ (by simp [hx]; omega)]
      have h2' : i < (k+1) + rest.length := by
        simp [List.length_cons] at h2
        omega
      exact ih (k+1) i h'.2 (by omega) h2'

theorem findState_isSome_of_lt {a : Arena} (hids : IdsOK a) {i : Nat} (hi : i < a.length) :
    (findState a i).isSome = true :=
  idsFrom_findState a 0 i hids (Nat.zero_le _) (by omega)

theorem findState_eq_none_of_ge {a : Arena} (hids : IdsOK a) {i : Nat} (hi : a.length ≤ i) :
    findState a i = none := by
  rw [findState, List.find?_eq_none]
  intro s hs hp
  have hb := idsFrom_mem_lt a 0 hids s hs
  have : s.id = i := by simpa using hp
  omega

theorem succs_eq_nil_of_ge {a : Arena} (hids : IdsOK a) {i : Nat} (hi : a.length ≤ i)
    (c : Char) : succs a i c = [] := by
  rw [succs, findState_eq_none_of_ge hids hi]

theorem mem_addTransitionTo {ts : List (Char × List Nat)} {c : Char} {j : Nat}
    {p : Char × List Nat} (hp : p ∈ addTransitionTo ts c j) {k : Nat} (hk : k ∈ p.2) :
    (∃ q ∈ ts, k ∈ q.2) ∨ k = j := by
  rw [addTransitionTo] at hp
  by_cases h : (ts.any fun p => p.1 == c) = true
  · rw [if_pos h] at hp
    obtain ⟨q, hq, hpq⟩ := List.mem_map.mp hp
    by_cases hqc : q.1 = c
    · rw [if_pos (by simp [hqc])] at hpq
      rw [← hpq] at hk
      rcases List.mem_append.mp hk with h1 | h1
      · exact Or.inl ⟨q, hq, h1⟩
      · simp at h1
        exact Or.inr h1
    · rw [if_neg (by simp [hqc])] at hpq
      rw [← hpq] at hk
      exact Or.inl ⟨q, hq, hk⟩
  · rw [if_neg h] at hp
    rcases List.mem_append.mp hp with h1 | h1
    · exact Or.inl ⟨p, h1, hk⟩
    · have : p = (c, [j]) := by simpa using h1
      subst this
      simp at hk
      exact Or.inr hk

theorem wf_setAccept {a : Arena} (h : WFArena a) (i : Nat) (b : Bool) :
    WFArena (setAccept a i b) := by
  intro s hs p hp j hj
  rw [length_setAccept]
  simp only [setAccept] at hs
  obtain ⟨s0, hs0, hmap⟩ := List.mem_map.mp hs
  by_cases hid : (s0.id == i) = true
  · rw [if_pos hid] at hmap
    rw [← hmap] at hp
    exact h s0 hs0 p hp j hj
  · rw [if_neg hid] at hmap
    rw [← hmap] at hp
    exact h s0 hs0 p hp j hj

theorem wf_addTrans {a : Arena} (h : WFArena a) {i : Nat} {c : Char} {j : Nat}
    (hj : j < a.length) : WFArena (addTrans a i c j) := by
  intro s hs p hp k hk
  rw [length_addTrans]
  simp only [addTrans] at hs
  obtain ⟨s0, hs0, hmap⟩ := List.mem_map.mp hs
  by_cases hid : (s0.id == i) = true
  · rw [if_pos hid] at hmap
    rw [← hmap] at hp
    rcases mem_addTransitionTo hp hk with ⟨q, hq, hkq⟩ | rfl
    · exact h s0 hs0 q hq k hkq
    · exact hj
  · rw [if_neg hid] at hmap
    rw [← hmap] at hp
    exact h s0 hs0 p hp k hk

theorem wf_newState {a : Arena} (h : WFArena a) : WFArena (newState a) := by
  intro s hs p hp k hk
  rw [length_newState]
  simp only [newState] at hs
  rcases List.mem_append.mp hs with h1 | h1
  · exact Nat.lt_succ_of_lt (h s h1 p hp k hk)
  · have : s = ⟨a.length, [], false⟩ := by simpa using h1
    subst this
    simp at hp

theorem succs_lt_of_wf {a : Arena} (hwf : WFArena a) (i : Nat) (c : Char) :
    ∀ j ∈ succs a i c, j < a.length := by
  intro j hj
  rw [succs] at hj
  cases hf : findState a i with
  | none => rw [hf] at hj; simp at hj
  | some s =>
    rw [hf] at hj
    have hs : s ∈ a := List.mem_of_find?_eq_some hf
    simp only [lookupTrans] at hj
    cases hl : s.transitions.find? (fun p => p.1 == c) with
    | none => rw [hl] at hj; simp at hj
    | some pr =>
      rw [hl] at hj
      exact hwf s hs pr (List.mem_of_find?_eq_some hl) j hj

/-! ### Compiler-state invariants -/

/-- The compiler-state invariant: ids are assigned in order, all
transition targets are existing states, and every stacked fragment's
endpoints are existing states. -/
structure InvB (st : CompSt) : Prop where
  ids : IdsOK st.arena
  wf : WFArena st.arena
  frags : ∀ f ∈ st.stack, f.s < st.arena.length ∧ f.e < st.arena.length

/-- Every stacked fragment's end is reachable from its start. -/
def FragsReach (st : CompSt) : Prop := ∀ f ∈ st.stack, Reach st.arena f.s f.e

/-- No state of the arena is marked accepting; this holds throughout the
token loop, since the one accept mark happens only after it. -/
def NoAccept (a : Arena) : Prop := ∀ s ∈ a, s.isAccept = false

/-- All invariants that hold of the compiler state during the token
loop. -/
def GoodSt (st : CompSt) : Prop := InvB st ∧ FragsReach st ∧ NoAccept st.arena

theorem noAccept_setAccept_false {a : Arena} (h : NoAccept a) (i : Nat) :
    NoAccept (setAccept a i false) := by
  intro s hs
  simp only [setAccept] at hs
  obtain ⟨s0, hs0, hmap⟩ := List.mem_map.mp hs
  by_cases hid : (s0.id == i) = true
  · rw [if_pos hid] at hmap
    rw [← hmap]
  · rw [if_neg hid] at hmap
    rw [← hmap]
    exact h s0 hs0

theorem noAccept_addTrans {a : Arena} (h : NoAccept a) (i : Nat) (c : Char) (j : Nat) :
    NoAccept (addTrans a i c j) := by
  intro s hs
  simp only [addTrans] at hs
  obtain ⟨s0, hs0, hmap⟩ := List.mem_map.mp hs
  by_cases hid : (s0.id == i) = true
  · rw [if_pos hid] at hmap
    rw [← hmap]
    exact h s0 hs0
  · rw [if_neg hid] at hmap
    rw [← hmap]
    exact h s0 hs0

theorem noAccept_newState {a : Arena} (h : NoAccept a) : NoAccept (newState a) := by
  intro s hs
  simp only [newState] at hs
  rcases List.mem_append.mp hs with h1 | h1
  · exact h s h1
  · have : s = ⟨a.length, [], false⟩ := by simpa using h1
    rw [this]

theorem reach_mono {a a' : Arena}
    (h : ∀ i c j, j ∈ succs a i c → j ∈ succs a' i c) {x y : Nat} (hr : Reach a x y) :
    Reach a' x y :=
  Relation.ReflTransGen.mono (fun i j hij => hij.elim fun c hc => ⟨c, h i c j hc⟩) hr

/-! ### Characterization of the four compile-step branches -/

/-- The arena after the `.` branch: clear the accept flag of the first
operand's end and join it to the second operand's start by an epsilon
transition. -/
def dotArena (a : Arena) (n1 n2 : Frag) : Arena :=
  addTrans (setAccept a n1.e false) n1.e 'ε' n2.s

/-- The arena after the `|` branch: two fresh states, epsilon fan-out to
both operand starts and epsilon fan-in from both operand ends. -/
def barArena (a : Arena) (n1 n2 : Frag) : Arena :=
  addTrans (addTrans (setAccept (setAccept (addTrans (addTrans (newState (newState a))
    a.length 'ε' n1.s) a.length 'ε' n2.s) n1.e false) n2.e false) n1.e 'ε' (a.length+1))
    n2.e 'ε' (a.length+1)

/-- The arena after the `*` branch: two fresh states, zero-iteration
path, loop-back and exit epsilon transitions. -/
def starArena (a : Arena) (n1 : Frag) : Arena :=
  addTrans (addTrans (setAccept (addTrans (addTrans (newState (newState a)) a.length 'ε' n1.s)
    a.length 'ε' (a.length+1)) n1.e false) n1.e 'ε' n1.s) n1.e 'ε' (a.length+1)

/-- The arena after the literal branch: two fresh states joined by one
transition labeled with the literal. -/
def litArena (a : Arena) (c : Char) : Arena :=
  addTrans (newState (newState a)) a.length c (a.length+1)

theorem compileStep_dot {st : CompSt} {n2 n1 : Frag} {rest : List Frag}
    (hs : st.stack = n2 :: n1 :: rest) :
    compileStep st '.' = some ⟨dotArena st.arena n1 n2, ⟨n1.s, n2.e⟩ :: rest⟩ := by
  rw [compileStep, hs]
  rfl

theorem compileStep_bar {st : CompSt} {n2 n1 : Frag} {rest : List Frag}
    (hs : st.stack = n2 :: n1 :: rest) :
    compileStep st '|' = some ⟨barArena st.arena n1 n2,
      ⟨st.arena.length, st.arena.length+1⟩ :: rest⟩ := by
  rw [compileStep, hs]
  rfl

theorem compileStep_star {st : CompSt} {n1 : Frag} {rest : List Frag}
    (hs : st.stack = n1 :: rest) :
    compileStep st '*' = some ⟨starArena st.arena n1,
      ⟨st.arena.length, st.arena.length+1⟩ :: rest⟩ := by
  rw [compileStep, hs]
  rfl

theorem compileStep_lit {st : CompSt} {c : Char} (h1 : c ≠ '.') (h2 : c ≠ '|') (h3 : c ≠ '*') :
    compileStep st c = some ⟨litArena st.arena c,
      ⟨st.arena.length, st.arena.length+1⟩ :: st.stack⟩ := by
  rw [compileStep, if_neg (show ¬((c == '.') = true) by simp [h1]),
    if_neg (show ¬((c == '|') = true) by simp [h2]),
    if_neg (show ¬((c == '*') = true) by simp [h3])]
  rfl

/-! ### Properties of the four branch arenas -/

theorem length_dotArena (a : Arena) (n1 n2 : Frag) :
    (dotArena a n1 n2).length = a.length := by
  rw [dotArena, length_addTrans, length_setAccept]

theorem length_barArena (a : Arena) (n1 n2 : Frag) :
    (barArena a n1 n2).length = a.length + 2 := by
  rw [barArena, length_addTrans, length_addTrans, length_setAccept, length_setAccept,
    length_addTrans, length_addTrans, length_newState, length_newState]

theorem length_starArena (a : Arena) (n1 : Frag) :
    (starArena a n1).length = a.length + 2 := by
  rw [starArena, length_addTrans, length_addTrans, length_setAccept, length_addTrans,
    length_addTrans, length_newState, length_newState]

theorem length_litArena (a : Arena) (c : Char) :
    (litArena a c).length = a.length + 2 := by
  rw [litArena, length_addTrans, length_newState, length_newState]

theorem ids_dotArena {a : Arena} (h : IdsOK a) (n1 n2 : Frag) : IdsOK (dotArena a n1 n2) :=
  ids_addTrans (ids_setAccept h n1.e false) n1.e 'ε' n2.s

theorem ids_barArena {a : Arena} (h : IdsOK a) (n1 n2 : Frag) : IdsOK (barArena a n1 n2) :=
  ids_addTrans (ids_addTrans (ids_setAccept (ids_setAccept (ids_addTrans (ids_addTrans
    (ids_newState (ids_newState h)) _ _ _) _ _ _) _ _) _ _) _ _ _) _ _ _

theorem ids_starArena {a : Arena} (h : IdsOK a) (n1 : Frag) : IdsOK (starArena a n1) :=
  ids_addTrans (ids_addTrans (ids_setAccept (ids_addTrans (ids_addTrans
    (ids_newState (ids_newState h)) _ _ _) _ _ _) _ _) _ _ _) _ _ _

theorem ids_litArena {a : Arena} (h : IdsOK a) (c : Char) : IdsOK (litArena a c) :=
  ids_addTrans (ids_newState (ids_newState h)) _ _ _

theorem noacc_dotArena {a : Arena} (h : NoAccept a) (n1 n2 : Frag) :
    NoAccept (dotArena a n1 n2) :=
  noAccept_addTrans (noAccept_setAccept_false h n1.e) n1.e 'ε' n2.s

theorem noacc_barArena {a : Arena} (h : NoAccept a) (n1 n2 : Frag) :
    NoAccept (barArena a n1 n2) :=
  noAccept_addTrans (noAccept_addTrans (noAccept_setAccept_false (noAccept_setAccept_false
    (noAccept_addTrans (noAccept_addTrans (noAccept_newState (noAccept_newState h)) _ _ _)
      _ _ _) _) _) _ _ _) _ _ _

theorem noacc_starArena {a : Arena} (h : NoAccept a) (n1 : Frag) :
    NoAccept (starArena a n1) :=
  noAccept_addTrans (noAccept_addTrans (noAccept_setAccept_false (noAccept_addTrans
    (noAccept_addTrans (noAccept_newState (noAccept_newState h)) _ _ _) _ _ _) _) _ _ _) _ _ _

theorem noacc_litArena {a : Arena} (h : NoAccept a) (c : Char) : NoAccept (litArena a c) :=
  noAccept_addTrans (noAccept_newState (noAccept_newState h)) _ _ _

theorem succs_mono_dotArena (a : Arena) (n1 n2 : Frag) :
    ∀ i c j, j ∈ succs a i c → j ∈ succs (dotArena a n1 n2) i c := by
  intro i c j hj
  rw [dotArena]
  apply succs_addTrans_superset
  rw [succs_setAccept]
  exact hj

theorem succs_mono_barArena (a : Arena) (n1 n2 : Frag) :
    ∀ i c j, j ∈ succs a i c → j ∈ succs (barArena a n1 n2) i c := by
  intro i c j hj
  rw [barArena]
  apply succs_addTrans_superset
  apply succs_addTrans_superset
  rw [succs_setAccept, succs_setAccept]
  apply succs_addTrans_superset
  apply succs_addTrans_superset
  rw [succs_newState, succs_newState]
  exact hj

theorem succs_mono_starArena (a : Arena) (n1 : Frag) :
    ∀ i c j, j ∈ succs a i c → j ∈ succs (starArena a n1) i c := by
  intro i c j hj
  rw [starArena]
  apply succs_addTrans_superset
  apply succs_addTrans_superset
  rw [succs_setAccept]
  apply succs_addTrans_superset
  apply succs_addTrans_superset
  rw [succs_newState, succs_newState]
  exact hj

theorem succs_mono_litArena (a : Arena) (c : Char) :
    ∀ i ch j, j ∈ succs a i ch → j ∈ succs (litArena a c) i ch := by
  intro i ch j hj
  rw [litArena]
  apply succs_addTrans_superset
  rw [succs_newState, succs_newState]
  exact hj

theorem wf_dotArena {a : Arena} (h : WFArena a) {n1 n2 : Frag} (h2 : n2.s < a.length) :
    WFArena (dotArena a n1 n2) :=
  wf_addTrans (wf_setAccept h n1.e false) (by rw [length_setAccept]; exact h2)

theorem wf_barArena {a : Arena} (h : WFArena a) {n1 n2 : Frag}
    (h1 : n1.s < a.length) (h2 : n2.s < a.length) : WFArena (barArena a n1 n2) := by
  have l1 : (newState (newState a)).length = a.length + 2 := by
    rw [length_newState, length_newState]
  apply wf_addTrans
  · apply wf_addTrans
    · apply wf_setAccept
      apply wf_setAccept
      apply wf_addTrans
      · apply wf_addTrans
        · exact wf_newState (wf_newState h)
        · rw [l1]
          omega
      · rw [length_addTrans, l1]
        omega
    · rw [length_setAccept, length_setAccept, length_addTrans, length_addTrans, l1]
      omega
  · rw [length_addTrans, length_setAccept, length_setAccept, length_addTrans,
      length_addTrans, l1]
    omega

theorem wf_starArena {a : Arena} (h : WFArena a) {n1 : Frag} (h1 : n1.s < a.length) :
    WFArena (starArena a n1) := by
  have l1 : (newState (newState a)).length = a.length + 2 := by
    rw [length_newState, length_newState]
  apply wf_addTrans
  · apply wf_addTrans
    · apply wf_setAccept
      apply wf_addTrans
      · apply wf_addTrans
        · exact wf_newState (wf_newState h)
        · rw [l1]
          omega
      · rw [length_addTrans, l1]
        omega
    · rw [length_setAccept, length_addTrans, length_addTrans, l1]
      omega
  · rw [length_addTrans, length_setAccept, length_addTrans, length_addTrans, l1]
    omega

theorem wf_litArena {a : Arena} (h : WFArena a) (c : Char) : WFArena (litArena a c) := by
  have l1 : (newState (newState a)).length = a.length + 2 := by
    rw [length_newState, length_newState]
  apply wf_addTrans (wf_newState (wf_newState h))
  rw [l1]
  omega

theorem dotArena_edge {a : Arena} (hids : IdsOK a) {n1 : Frag} (he1 : n1.e < a.length)
    (n2 : Frag) : hasEdge (dotArena a n1 n2) n1.e 'ε' n2.s := by
  rw [dotArena]
  exact hasEdge_addTrans_new (findState_isSome_of_lt (ids_setAccept hids n1.e false)
    (by rw [length_setAccept]; exact he1)) 'ε' n2.s

theorem barArena_edge_start_n1 {a : Arena} (hids : IdsOK a) (n1 n2 : Frag) :
    hasEdge (barArena a n1 n2) a.length 'ε' n1.s := by
  rw [barArena]
  apply hasEdge_addTrans
  apply hasEdge_addTrans
  apply hasEdge_setAccept
  apply hasEdge_setAccept
  apply hasEdge_addTrans
  exact hasEdge_addTrans_new (findState_isSome_of_lt (ids_newState (ids_newState hids))
    (by rw [length_newState, length_newState]; omega)) 'ε' n1.s

theorem barArena_edge_start_n2 {a : Arena} (hids : IdsOK a) (n1 n2 : Frag) :
    hasEdge (barArena a n1 n2) a.length 'ε' n2.s := by
  rw [barArena]
  apply hasEdge_addTrans
  apply hasEdge_addTrans
  apply hasEdge_setAccept
  apply hasEdge_setAccept
  exact hasEdge_addTrans_new (findState_isSome_of_lt (ids_addTrans (ids_newState
    (ids_newState hids)) _ _ _)
    (by rw [length_addTrans, length_newState, length_newState]; omega)) 'ε' n2.s

theorem barArena_edge_n1e_end {a : Arena} (hids : IdsOK a) {n1 : Frag} (he1 : n1.e < a.length)
    (n2 : Frag) : hasEdge (barArena a n1 n2) n1.e 'ε' (a.length+1) := by
  rw [barArena]
  apply hasEdge_addTrans
  refine hasEdge_addTrans_new (findState_isSome_of_lt (ids_setAccept (ids_setAccept
    (ids_addTrans (ids_addTrans (ids_newState (ids_newState hids)) _ _ _) _ _ _) _ _) _ _) ?_)
    'ε' (a.length+1)
  rw [length_setAccept, length_setAccept, length_addTrans, length_addTrans,
    length_newState, length_newState]
  omega

theorem barArena_edge_n2e_end {a : Arena} (hids : IdsOK a) (n1 : Frag) {n2 : Frag}
    (he2 : n2.e < a.length) : hasEdge (barArena a n1 n2) n2.e 'ε' (a.length+1) := by
  rw [barArena]
  refine hasEdge_addTrans_new (findState_isSome_of_lt (ids_addTrans (ids_setAccept
    (ids_setAccept (ids_addTrans (ids_addTrans (ids_newState (ids_newState hids)) _ _ _)
      _ _ _) _ _) _ _) _ _ _) ?_) 'ε' (a.length+1)
  rw [length_addTrans, length_setAccept, length_setAccept, length_addTrans, length_addTrans,
    length_newState, length_newState]
  omega

theorem starArena_edge_start_end {a : Arena} (hids : IdsOK a) (n1 : Frag) :
    hasEdge (starArena a n1) a.length 'ε' (a.length+1) := by
  rw [starArena]
  apply hasEdge_addTrans
  apply hasEdge_addTrans
  apply hasEdge_setAccept
  exact hasEdge_addTrans_new (findState_isSome_of_lt (ids_addTrans (ids_newState
    (ids_newState hids)) _ _ _)
    (by rw [length_addTrans, length_newState, length_newState]; omega)) 'ε' (a.length+1)

theorem litArena_edge {a : Arena} (hids : IdsOK a) (c : Char) :
    hasEdge (litArena a c) a.length c (a.length+1) := by
  rw [litArena]
  exact hasEdge_addTrans_new (findState_isSome_of_lt (ids_newState (ids_newState hids))
    (by rw [length_newState, length_newState]; omega)) c (a.length+1)

theorem compileStep_dot_underflow {st : CompSt}
    (hs : st.stack = [] ∨ ∃ f, st.stack = [f]) : compileStep st '.' = none := by
  rcases hs with hs | ⟨f, hs⟩ <;> rw [compileStep, hs] <;> rfl

theorem compileStep_bar_underflow {st : CompSt}
    (hs : st.stack = [] ∨ ∃ f, st.stack = [f]) : compileStep st '|' = none := by
  rcases hs with hs | ⟨f, hs⟩ <;> rw [compileStep, hs] <;> rfl

theorem compileStep_star_underflow {st : CompSt} (hs : st.stack = []) :
    compileStep st '*' = none := by
  rw [compileStep, hs]
  rfl

theorem compileStep_mono {st : CompSt} {c : Char} {st' : CompSt}
    (h : compileStep st c = some st') {i : Nat} {ch : Char} {j : Nat}
    (he : hasEdge st.arena i ch j) : hasEdge st'.arena i ch j := by
  by_cases h1 : c = '.'
  · subst h1
    match hs : st.stack with
    | [] =>
      rw [compileStep_dot_underflow (Or.inl hs)] at h
      exact Option.noConfusion h
    | [f] =>
      rw [compileStep_dot_underflow (Or.inr ⟨f, hs⟩)] at h
      exact Option.noConfusion h
    | n2 :: n1 :: rest =>
      rw [compileStep_dot hs] at h
      cases h
      exact hasEdge_addTrans (hasEdge_setAccept he)
  · by_cases h2 : c = '|'
    · subst h2
      match hs : st.stack with
      | [] =>
        rw [compileStep_bar_underflow (Or.inl hs)] at h
        exact Option.noConfusion h
      | [f] =>
        rw [compileStep_bar_underflow (Or.inr ⟨f, hs⟩)] at h
        exact Option.noConfusion h
      | n2 :: n1 :: rest =>
        rw [compileStep_bar hs] at h
        cases h
        exact hasEdge_addTrans (hasEdge_addTrans (hasEdge_setAccept (hasEdge_setAccept
          (hasEdge_addTrans (hasEdge_addTrans (hasEdge_newState (hasEdge_newState he)))))))
    · by_cases h3 : c = '*'
      · subst h3
        match hs : st.stack with
        | [] =>
          rw [compileStep_star_underflow hs] at h
          exact Option.noConfusion h
        | n1 :: rest =>
          rw [compileStep_star hs] at h
          cases h
          exact hasEdge_addTrans (hasEdge_addTrans (hasEdge_setAccept
            (hasEdge_addTrans (hasEdge_addTrans (hasEdge_newState (hasEdge_newState he))))))
      · rw [compileStep_lit h1 h2 h3] at h
        cases h
        exact hasEdge_addTrans (hasEdge_newState (hasEdge_newState he))

theorem foldlM_compileStep_pres {P : CompSt → Prop}
    (hstep : ∀ st c st', compileStep st c = some st' → P st → P st') :
    ∀ (l : List Char) (st st' : CompSt), List.foldlM compileStep st l = some st' →
      P st → P st' := by
  intro l
  induction l with
  | nil =>
    intro st st' h hp
    simp only [List.foldlM_nil] at h
    cases h
    exact hp
  | cons a l ih =>
    intro st st' h hp
    rw [List.foldlM_cons] at h
    cases hstep1 : compileStep st a with
    | none =>
      rw [hstep1] at h
      exact Option.noConfusion h
    | some st1 =>
      rw [hstep1] at h
      exact ih st1 st' h (hstep st a st1 hstep1 hp)

/-! ### Preservation of the compiler invariants -/

theorem good_dot {st : CompSt} {n2 n1 : Frag} {rest : List Frag}
    (hs : st.stack = n2 :: n1 :: rest) (hg : GoodSt st) :
    GoodSt ⟨dotArena st.arena n1 n2, ⟨n1.s, n2.e⟩ :: rest⟩ := by
  obtain ⟨hinv, hreach, hnoacc⟩ := hg
  have hmem2 : n2 ∈ st.stack := by rw [hs]; exact List.mem_cons_self _ _
  have hmem1 : n1 ∈ st.stack := by rw [hs]; exact List.mem_cons_of_mem _ (List.mem_cons_self _ _)
  have hn2 := hinv.frags n2 hmem2
  have hn1 := hinv.frags n1 hmem1
  refine ⟨⟨ids_dotArena hinv.ids n1 n2, wf_dotArena hinv.wf hn2.1, ?_⟩, ?_, noacc_dotArena hnoacc n1 n2⟩
  · intro f hf
    show f.s < (dotArena st.arena n1 n2).length ∧ f.e < (dotArena st.arena n1 n2).length
    rw [length_dotArena]
    rcases List.mem_cons.mp hf with rfl | hf2
    · exact ⟨hn1.1, hn2.2⟩
    · exact hinv.frags f (by rw [hs]; exact List.mem_cons_of_mem _ (List.mem_cons_of_mem _ hf2))
  · intro f hf
    rcases List.mem_cons.mp hf with rfl | hf2
    · exact Relation.ReflTransGen.trans
        (reach_mono (succs_mono_dotArena st.arena n1 n2) (hreach n1 hmem1))
        (Relation.ReflTransGen.head ⟨'ε', dotArena_edge hinv.ids hn1.2 n2⟩
          (reach_mono (succs_mono_dotArena st.arena n1 n2) (hreach n2 hmem2)))
    · exact reach_mono (succs_mono_dotArena st.arena n1 n2)
        (hreach f (by rw [hs]; exact List.mem_cons_of_mem _ (List.mem_cons_of_mem _ hf2)))

theorem good_bar {st : CompSt} {n2 n1 : Frag} {rest : List Frag}
    (hs : st.stack = n2 :: n1 :: rest) (hg : GoodSt st) :
    GoodSt ⟨barArena st.arena n1 n2, ⟨st.arena.length, st.arena.length+1⟩ :: rest⟩ := by
  obtain ⟨hinv, hreach, hnoacc⟩ := hg
  have hmem2 : n2 ∈ st.stack := by rw [hs]; exact List.mem_cons_self _ _
  have hmem1 : n1 ∈ st.stack := by rw [hs]; exact List.mem_cons_of_mem _ (List.mem_cons_self _ _)
  have hn2 := hinv.frags n2 hmem2
  have hn1 := hinv.frags n1 hmem1
  refine ⟨⟨ids_barArena hinv.ids n1 n2, wf_barArena hinv.wf hn1.1 hn2.1, ?_⟩, ?_, noacc_barArena hnoacc n1 n2⟩
  · intro f hf
    show f.s < (barArena st.arena n1 n2).length ∧ f.e < (barArena st.arena n1 n2).length
    rw [length_barArena]
    rcases List.mem_cons.mp hf with rfl | hf2
    · exact ⟨by show st.arena.length < st.arena.length + 2; omega,
        by show st.arena.length + 1 < st.arena.length + 2; omega⟩
    · have := hinv.frags f (by rw [hs]; exact List.mem_cons_of_mem _ (List.mem_cons_of_mem _ hf2))
      constructor <;> omega
  · intro f hf
    rcases List.mem_cons.mp hf with rfl | hf2
    · exact Relation.ReflTransGen.head ⟨'ε', barArena_edge_start_n1 hinv.ids n1 n2⟩
        (Relation.ReflTransGen.trans
          (reach_mono (succs_mono_barArena st.arena n1 n2) (hreach n1 hmem1))
          (Relation.ReflTransGen.single ⟨'ε', barArena_edge_n1e_end hinv.ids hn1.2 n2⟩))
    · exact reach_mono (succs_mono_barArena st.arena n1 n2)
        (hreach f (by rw [hs]; exact List.mem_cons_of_mem _ (List.mem_cons_of_mem _ hf2)))

theorem good_star {st : CompSt} {n1 : Frag} {rest : List Frag}
    (hs : st.stack = n1 :: rest) (hg : GoodSt st) :
    GoodSt ⟨starArena st.arena n1, ⟨st.arena.length, st.arena.length+1⟩ :: rest⟩ := by
  obtain ⟨hinv, hreach, hnoacc⟩ := hg
  have hmem1 : n1 ∈ st.stack := by rw [hs]; exact List.mem_cons_self _ _
  have hn1 := hinv.frags n1 hmem1
  refine ⟨⟨ids_starArena hinv.ids n1, wf_starArena hinv.wf hn1.1, ?_⟩, ?_, noacc_starArena hnoacc n1⟩
  · intro f hf
    show f.s < (starArena st.arena n1).length ∧ f.e < (starArena st.arena n1).length
    rw [length_starArena]
    rcases List.mem_cons.mp hf with rfl | hf2
    · exact ⟨by show st.arena.length < st.arena.length + 2; omega,
        by show st.arena.length + 1 < st.arena.length + 2; omega⟩
    · have := hinv.frags f (by rw [hs]; exact List.mem_cons_of_mem _ hf2)
      constructor <;> omega
  · intro f hf
    rcases List.mem_cons.mp hf with rfl | hf2
    · exact Relation.ReflTransGen.single ⟨'ε', starArena_edge_start_end hinv.ids n1⟩
    · exact reach_mono (succs_mono_starArena st.arena n1)
        (hreach f (by rw [hs]; exact List.mem_cons_of_mem _ hf2))

theorem good_lit {st : CompSt} (c : Char) (hg : GoodSt st) :
    GoodSt ⟨litArena st.arena c, ⟨st.arena.length, st.arena.length+1⟩ :: st.stack⟩ := by
  obtain ⟨hinv, hreach, hnoacc⟩ := hg
  refine ⟨⟨ids_litArena hinv.ids c, wf_litArena hinv.wf c, ?_⟩, ?_, noacc_litArena hnoacc c⟩
  · intro f hf
    show f.s < (litArena st.arena c).length ∧ f.e < (litArena st.arena c).length
    rw [length_litArena]
    rcases List.mem_cons.mp hf with rfl | hf2
    · exact ⟨by show st.arena.length < st.arena.length + 2; omega,
        by show st.arena.length + 1 < st.arena.length + 2; omega⟩
    · have := hinv.frags f hf2
      constructor <;> omega
  · intro f hf
    rcases List.mem_cons.mp hf with rfl | hf2
    · exact Relation.ReflTransGen.single ⟨c, litArena_edge hinv.ids c⟩
    · exact reach_mono (succs_mono_litArena st.arena c) (hreach f hf2)

theorem compileStep_good {st : CompSt} {c : Char} {st' : CompSt}
    (h : compileStep st c = some st') (hg : GoodSt st) : GoodSt st' := by
  by_cases h1 : c = '.'
  · subst h1
    match hs : st.stack with
    | [] =>
      rw [compileStep_dot_underflow (Or.inl hs)] at h
      exact Option.noConfusion h
    | [f] =>
      rw [compileStep_dot_underflow (Or.inr ⟨f, hs⟩)] at h
      exact Option.noConfusion h
    | n2 :: n1 :: rest =>
      rw [compileStep_dot hs] at h
      cases h
      exact good_dot hs hg
  · by_cases h2 : c = '|'
    · subst h2
      match hs : st.stack with
      | [] =>
        rw [compileStep_bar_underflow (Or.inl hs)] at h
        exact Option.noConfusion h
      | [f] =>
        rw [compileStep_bar_underflow (Or.inr ⟨f, hs⟩)] at h
        exact Option.noConfusion h
      | n2 :: n1 :: rest =>
        rw [compileStep_bar hs] at h
        cases h
        exact good_bar hs hg
    · by_cases h3 : c = '*'
      · subst h3
        match hs : st.stack with
        | [] =>
          rw [compileStep_star_underflow hs] at h
          exact Option.noConfusion h
        | n1 :: rest =>
          rw [compileStep_star hs] at h
          cases h
          exact good_star hs hg
      · rw [compileStep_lit h1 h2 h3] at h
        cases h
        exact good_lit c hg

theorem compileRegexToNFA_none_of_run_none {p : List Char} (h : runCompile p = none) :
    compileRegexToNFA p = none := by
  simp only [compileRegexToNFA, h]

theorem compileRegexToNFA_none_of_empty_stack {p : List Char} {st : CompSt}
    (h : runCompile p = some st) (hs : st.stack = []) : compileRegexToNFA p = none := by
  simp only [compileRegexToNFA, h, hs]

theorem compileRegexToNFA_of_run {p : List Char} {st : CompSt} {f : Frag} {rest : List Frag}
    (h : runCompile p = some st) (hs : st.stack = f :: rest) :
    compileRegexToNFA p = some (setAccept st.arena f.e true, f.s, f.e) := by
  simp only [compileRegexToNFA, h, hs]

theorem compile_inversion {p : List Char} {a : Arena} {s e : Nat}
    (h : compileRegexToNFA p = some (a, s, e)) :
    ∃ (st : CompSt) (f : Frag) (rest : List Frag),
      runCompile p = some st ∧ st.stack = f :: rest ∧
      a = setAccept st.arena f.e true ∧ s = f.s ∧ e = f.e := by
  cases hrun : runCompile p with
  | none =>
    rw [compileRegexToNFA_none_of_run_none hrun] at h
    exact Option.noConfusion h
  | some st =>
    cases hstk : st.stack with
    | nil =>
      rw [compileRegexToNFA_none_of_empty_stack hrun hstk] at h
      exact Option.noConfusion h
    | cons f rest =>
      rw [compileRegexToNFA_of_run hrun hstk] at h
      have h2 := Option.some.inj h
      exact ⟨st, f, rest, rfl, hstk,
        (congrArg (fun r => r.1) h2).symm,
        (congrArg (fun r => r.2.1) h2).symm,
        (congrArg (fun r => r.2.2) h2).symm⟩

theorem goodSt_init : GoodSt ⟨[], []⟩ :=
  ⟨⟨rfl, fun s hs => absurd hs (List.not_mem_nil s), fun f hf => absurd hf (List.not_mem_nil f)⟩,
   fun f hf => absurd hf (List.not_mem_nil f), fun s hs => absurd hs (List.not_mem_nil s)⟩

theorem runCompile_good {p : List Char} {st : CompSt} (h : runCompile p = some st) :
    GoodSt st :=
  foldlM_compileStep_pres (fun _ _ _ hc hg => compileStep_good hc hg)
    (toPostfix p) ⟨[], []⟩ st h goodSt_init

/-! ### Fuel stability of the closure computation -/

theorem addState_succ (a : Arena) (fuel i : Nat) (set : List Nat) :
    addState a (fuel+1) i set = if i ∈ set then set
      else (epsSucc a i).foldl (fun acc j => addState a fuel j acc) (set ++ [i]) := rfl

theorem subset_foldl_addState (a : Arena) (fuel : Nat)
    (h : ∀ (i : Nat) (set : List Nat), set ⊆ addState a fuel i set) :
    ∀ (l acc : List Nat), acc ⊆ l.foldl (fun ac j => addState a fuel j ac) acc := by
  intro l
  induction l with
  | nil => intro acc x hx; exact hx
  | cons j l ih =>
    intro acc x hx
    exact ih (addState a fuel j acc) (h j acc hx)

theorem subset_addState (a : Arena) : ∀ (fuel i : Nat) (set : List Nat),
    set ⊆ addState a fuel i set := by
  intro fuel
  induction fuel with
  | zero => intro i set x hx; exact hx
  | succ f ih =>
    intro i set x hx
    rw [addState_succ]
    by_cases hmem : i ∈ set
    · rw [if_pos hmem]
      exact hx
    · rw [if_neg hmem]
      exact subset_foldl_addState a f (fun i2 s2 => ih i2 s2) (epsSucc a i) (set ++ [i])
        (List.mem_append_left _ hx)

theorem foldl_addState_lt (a : Arena) (fuel : Nat)
    (h : ∀ (i : Nat) (set : List Nat), i < a.length → (∀ x ∈ set, x < a.length) →
      ∀ x ∈ addState a fuel i set, x < a.length) :
    ∀ (l acc : List Nat), (∀ x ∈ l, x < a.length) → (∀ x ∈ acc, x < a.length) →
      ∀ x ∈ l.foldl (fun ac j => addState a fuel j ac) acc, x < a.length := by
  intro l
  induction l with
  | nil => intro acc _ hacc x hx; exact hacc x hx
  | cons j l ih =>
    intro acc hl hacc x hx
    exact ih (addState a fuel j acc)
      (fun y hy => hl y (List.mem_cons_of_mem _ hy))
      (h j acc (hl j (List.mem_cons_self _ _)) hacc) x hx

theorem mem_addState_lt {a : Arena} (hwf : WFArena a) : ∀ (fuel i : Nat) (set : List Nat),
    i < a.length → (∀ x ∈ set, x < a.length) →
    ∀ x ∈ addState a fuel i set, x < a.length := by
  intro fuel
  induction fuel with
  | zero => intro i set _ hset x hx; exact hset x hx
  | succ f ih =>
    intro i set hi hset x hx
    rw [addState_succ] at hx
    by_cases hmem : i ∈ set
    · rw [if_pos hmem] at hx
      exact hset x hx
    · rw [if_neg hmem] at hx
      refine foldl_addState_lt a f ih (epsSucc a i) (set ++ [i])
        (fun y hy => succs_lt_of_wf hwf i 'ε' y hy) ?_ x hx
      intro y hy
      rcases List.mem_append.mp hy with hy1 | hy1
      · exact hset y hy1
      · have : y = i := by simpa using hy1
        omega

/-- The number of states of a size-`n` arena not yet in the visited
set. -/
def missCount (n : Nat) (set : List Nat) : Nat :=
  ((List.range n).filter (fun x => decide (x ∉ set))).length

theorem filter_length_mono {α : Type} (p q : α → Bool) :
    ∀ l : List α, (∀ x ∈ l, p x = true → q x = true) →
      (l.filter p).length ≤ (l.filter q).length := by
  intro l
  induction l with
  | nil => intro _; exact Nat.le_refl _
  | cons x l ih =>
    intro h
    have ih2 := ih (fun y hy hp => h y (List.mem_cons_of_mem _ hy) hp)
    by_cases hp : p x = true
    · rw [List.filter_cons_of_pos hp, List.filter_cons_of_pos (h x (List.mem_cons_self _ _) hp)]
      exact Nat.succ_le_succ ih2
    · rw [List.filter_cons_of_neg (by simpa using hp)]
      by_cases hq : q x = true
      · rw [List.filter_cons_of_pos hq]
        exact Nat.le_succ_of_le ih2
      · rw [List.filter_cons_of_neg (by simpa using hq)]
        exact ih2

theorem filter_length_lt {α : Type} (p q : α → Bool) (x0 : α) :
    ∀ l : List α, (∀ x ∈ l, p x = true → q x = true) → x0 ∈ l →
      q x0 = true → p x0 = false →
      (l.filter p).length < (l.filter q).length := by
  intro l
  induction l with
  | nil => intro _ hx0; cases hx0
  | cons x l ih =>
    intro h hx0 hq hp
    have hsub : ∀ y ∈ l, p y = true → q y = true :=
      fun y hy hpy => h y (List.mem_cons_of_mem _ hy) hpy
    rcases List.mem_cons.mp hx0 with rfl | hx1
    · rw [List.filter_cons_of_neg (by simp [hp]), List.filter_cons_of_pos hq]
      exact Nat.lt_succ_of_le (filter_length_mono p q l hsub)
    · by_cases hpx : p x = true
      · rw [List.filter_cons_of_pos hpx, List.filter_cons_of_pos (h x (List.mem_cons_self _ _) hpx)]
        exact Nat.succ_lt_succ (ih hsub hx1 hq hp)
      · rw [List.filter_cons_of_neg (by simpa using hpx)]
        by_cases hqx : q x = true
        · rw [List.filter_cons_of_pos hqx]
          exact Nat.lt_succ_of_lt (ih hsub hx1 hq hp)
        · rw [List.filter_cons_of_neg (by simpa using hqx)]
          exact ih hsub hx1 hq hp

theorem missCount_le (n : Nat) (set : List Nat) : missCount n set ≤ n := by
  calc ((List.range n).filter (fun x => decide (x ∉ set))).length
      ≤ (List.range n).length := List.length_filter_le _ _
    _ = n := List.length_range n

theorem missCount_mono {n : Nat} {s1 s2 : List Nat} (h : s1 ⊆ s2) :
    missCount n s2 ≤ missCount n s1 := by
  apply filter_length_mono
  intro x _ hx
  simp only [decide_eq_true_eq] at hx ⊢
  intro hmem
  exact hx (h hmem)

theorem missCount_append_lt {n : Nat} {set : List Nat} {i : Nat} (hi : i < n)
    (hmem : i ∉ set) : missCount n (set ++ [i]) < missCount n set := by
  refine filter_length_lt _ _ i (List.range n) ?_ (List.mem_range.mpr hi) ?_ ?_
  · intro x _ hx
    simp only [decide_eq_true_eq] at hx ⊢
    intro h1
    exact hx (List.mem_append_left _ h1)
  · simp [hmem]
  · simp

theorem missCount_zero {n : Nat} {set : List Nat} (h : missCount n set = 0) :
    ∀ x, x < n → x ∈ set := by
  intro x hx
  rw [missCount, List.length_eq_zero] at h
  have h2 := List.filter_eq_nil_iff.mp h
  by_contra hmem
  exact absurd (by simp [hmem] : (decide (x ∉ set)) = true) (h2 x (List.mem_range.mpr hx))

theorem addState_fuel_stable {a : Arena} (hwf : WFArena a) :
    ∀ (m fuel1 fuel2 i : Nat) (set : List Nat),
      i < a.length → (∀ x ∈ set, x < a.length) → missCount a.length set ≤ m →
      m ≤ fuel1 → m ≤ fuel2 →
      addState a fuel1 i set = addState a fuel2 i set := by
  intro m
  induction m with
  | zero =>
    intro fuel1 fuel2 i set hi hset hmiss _ _
    have hmem : i ∈ set := missCount_zero (Nat.le_zero.mp hmiss) i hi
    have e1 : addState a fuel1 i set = set := by
      cases fuel1 with
      | zero => rfl
      | succ f => rw [addState_succ, if_pos hmem]
    have e2 : addState a fuel2 i set = set := by
      cases fuel2 with
      | zero => rfl
      | succ f => rw [addState_succ, if_pos hmem]
    rw [e1, e2]
  | succ m ihm =>
    intro fuel1 fuel2 i set hi hset hmiss h1 h2
    by_cases hmem : i ∈ set
    · have e1 : addState a fuel1 i set = set := by
        cases fuel1 with
        | zero => rfl
        | succ f => rw [addState_succ, if_pos hmem]
      have e2 : addState a fuel2 i set = set := by
        cases fuel2 with
        | zero => rfl
        | succ f => rw [addState_succ, if_pos hmem]
      rw [e1, e2]
    · cases fuel1 with
      | zero => omega
      | succ f1 =>
        cases fuel2 with
        | zero => omega
        | succ f2 =>
          rw [addState_succ, if_neg hmem, addState_succ, if_neg hmem]
          have hseti : ∀ x ∈ set ++ [i], x < a.length := by
            intro x hx
            rcases List.mem_append.mp hx with hx1 | hx1
            · exact hset x hx1
            · have : x = i := by simpa using hx1
              omega
          have hmiss2 : missCount a.length (set ++ [i]) ≤ m := by
            have := missCount_append_lt hi hmem
            omega
          have hfold : ∀ (l : List Nat), (∀ x ∈ l, x < a.length) →
              ∀ (acc : List Nat), (∀ x ∈ acc, x < a.length) → missCount a.length acc ≤ m →
              l.foldl (fun ac j => addState a f1 j ac) acc =
                l.foldl (fun ac j => addState a f2 j ac) acc := by
            intro l
            induction l with
            | nil => intro _ acc _ _; rfl
            | cons j l ihl =>
              intro hl acc hacc hmacc
              have hj : j < a.length := hl j (List.mem_cons_self _ _)
              have hstep : addState a f1 j acc = addState a f2 j acc :=
                ihm f1 f2 j acc hj hacc hmacc (by omega) (by omega)
              simp only [List.foldl_cons]
              rw [hstep]
              exact ihl (fun y hy => hl y (List.mem_cons_of_mem _ hy)) (addState a f2 j acc)
                (mem_addState_lt hwf f2 j acc hj hacc)
                (Nat.le_trans (missCount_mono (subset_addState a f2 j acc)) hmacc)
          exact hfold (epsSucc a i) (fun y hy => succs_lt_of_wf hwf i 'ε' y hy)
            (set ++ [i]) hseti hmiss2

theorem foldlAdd_stable {a : Arena} (hwf : WFArena a) {f1 f2 : Nat}
    (hf1 : a.length ≤ f1) (hf2 : a.length ≤ f2) :
    ∀ (l acc : List Nat), (∀ x ∈ l, x < a.length) → (∀ x ∈ acc, x < a.length) →
      l.foldl (fun ac j => addState a f1 j ac) acc =
        l.foldl (fun ac j => addState a f2 j ac) acc := by
  intro l
  induction l with
  | nil => intro acc _ _; rfl
  | cons j l ih =>
    intro acc hl hacc
    have hj := hl j (List.mem_cons_self _ _)
    have hstep : addState a f1 j acc = addState a f2 j acc :=
      addState_fuel_stable hwf a.length f1 f2 j acc hj hacc (missCount_le _ _) hf1 hf2
    simp only [List.foldl_cons]
    rw [hstep]
    exact ih (addState a f2 j acc) (fun y hy => hl y (List.mem_cons_of_mem _ hy))
      (mem_addState_lt hwf f2 j acc hj hacc)

theorem stepChar_stable {a : Arena} (hwf : WFArena a) {f1 f2 : Nat}
    (hf1 : a.length ≤ f1) (hf2 : a.length ≤ f2) (cur : List Nat) (c : Char) :
    stepChar a f1 cur c = stepChar a f2 cur c := by
  rw [stepChar, stepChar]
  have gen : ∀ (l acc : List Nat), (∀ x ∈ acc, x < a.length) →
      l.foldl (fun acc2 i => (succs a i c).foldl (fun ac j => addState a f1 j ac) acc2) acc =
        l.foldl (fun acc2 i => (succs a i c).foldl (fun ac j => addState a f2 j ac) acc2) acc := by
    intro l
    induction l with
    | nil => intro acc _; rfl
    | cons i l ih =>
      intro acc hacc
      simp only [List.foldl_cons]
      have hstep : (succs a i c).foldl (fun ac j => addState a f1 j ac) acc =
          (succs a i c).foldl (fun ac j => addState a f2 j ac) acc :=
        foldlAdd_stable hwf hf1 hf2 (succs a i c) acc
          (fun y hy => succs_lt_of_wf hwf i c y hy) hacc
      rw [hstep]
      exact ih _ (foldl_addState_lt a f2 (mem_addState_lt hwf f2) (succs a i c) acc
        (fun y hy => succs_lt_of_wf hwf i c y hy) hacc)
  exact gen cur [] (fun x hx => absurd hx (List.not_mem_nil x))

theorem simulateFuel_stable {a : Arena} (hwf : WFArena a) {s : Nat} (hs : s < a.length)
    {f1 f2 : Nat} (hf1 : a.length ≤ f1) (hf2 : a.length ≤ f2) (input : List Char) :
    simulateFuel a s f1 input = simulateFuel a s f2 input := by
  simp only [simulateFuel]
  by_cases hemp : input.isEmpty = true
  · rw [if_pos hemp, if_pos hemp]
  · rw [if_neg hemp, if_neg hemp]
    have hinit : addState a f1 s [] = addState a f2 s [] :=
      addState_fuel_stable hwf a.length f1 f2 s [] hs
        (fun x hx => absurd hx (List.not_mem_nil x)) (missCount_le _ _) hf1 hf2
    have hfold : ∀ (l : List Char) (cur : List Nat),
        l.foldl (stepChar a f1) cur = l.foldl (stepChar a f2) cur := by
      intro l
      induction l with
      | nil => intro cur; rfl
      | cons c l ih =>
        intro cur
        simp only [List.foldl_cons]
        rw [stepChar_stable hwf hf1 hf2 cur c]
        exact ih (stepChar a f2 cur c)
    rw [hinit, hfold input (addState a f2 s [])]

/-! ### Theorems -/

/-- Claim C7: the lexical normalizer is total and returns the input with
a `.` inserted between adjacent positions exactly when the left character
is alphanumeric, `*` or `)` and the right one is alphanumeric or `(`,
with no other changes and no insertion at the boundaries. -/
theorem insertConcat_correct : ∀ p : List Char, insertConcat p = insertConcatSpec p := by
  intro p
  induction p with
  | nil => rfl
  | cons c rest ih =>
    cases rest with
    | nil => rfl
    | cons c2 rest2 =>
      rw [insertConcat]
      by_cases h : (concatLeft c && concatRight c2) = true
      · rw [if_pos h, ih]
        rw [Bool.and_eq_true] at h
        simp [insertConcatSpec, List.zip_cons_cons, List.flatMap_cons, h.1, h.2]
      · rw [if_neg h, ih]
        rw [Bool.and_eq_true] at h
        simp [insertConcatSpec, List.zip_cons_cons, List.flatMap_cons, h]

theorem precOf_eq_precSpec (c : Char) : precOf c = precSpec c := by
  by_cases h1 : c = '*'
  · subst h1; rfl
  · by_cases h2 : c = '.'
    · subst h2; rfl
    · by_cases h3 : c = '|'
      · subst h3; rfl
      · simp [precOf, precSpec, h1, h2, h3]

theorem popGE_eq (c : Char) : ∀ st : List Char,
    popGE c st = (st.takeWhile (fun t => popCond t c), st.dropWhile (fun t => popCond t c)) := by
  intro st
  induction st with
  | nil => rfl
  | cons t rest ih =>
    rw [popGE]
    have hc : (match precSpec t, precSpec c with
        | some a, some b => decide (b ≤ a)
        | _, _ => false) = popCond t c := by
      rw [popCond, precOf_eq_precSpec t, precOf_eq_precSpec c]
    rw [hc]
    by_cases h : popCond t c = true
    · rw [if_pos h, ih]
      simp [List.takeWhile_cons, List.dropWhile_cons, h]
    · rw [if_neg h]
      simp [List.takeWhile_cons, List.dropWhile_cons, h]

theorem popUntilParen_eq : ∀ st : List Char,
    popUntilParen st =
      (st.takeWhile (fun t => t != '('), (st.dropWhile (fun t => t != '(')).drop 1) := by
  intro st
  induction st with
  | nil => rfl
  | cons t rest ih =>
    rw [popUntilParen]
    by_cases h : t = '('
    · subst h
      simp [List.takeWhile_cons, List.dropWhile_cons]
    · rw [if_neg h, ih]
      simp [List.takeWhile_cons, List.dropWhile_cons, h]

theorem shuntStep_eq (acc : List Char × List Char) (c : Char) :
    shuntStep acc c = shuntStepSpec acc c := by
  obtain ⟨out, st⟩ := acc
  by_cases h1 : isAlnumChar c = true
  · simp [shuntStep, shuntStepSpec, h1]
  · by_cases h2 : c = '('
    · subst h2; simp [shuntStep, shuntStepSpec, h1]
    · by_cases h3 : c = ')'
      · subst h3
        simp [shuntStep, shuntStepSpec, h1, popUntilParen_eq]
      · simp [shuntStep, shuntStepSpec, h1, h2, h3, popGE_eq]

/-- Claim C6: for every input string the shunting-yard loop behaves as
described — alphanumerics are emitted immediately, `(` is pushed, `)`
pops and emits until the discarded matching `(`, any other operator pops
and emits the stacked operators of greater-or-equal precedence (with `*`
highest, then `.`, then `|`) before being pushed, and the remaining stack
is emitted in pop order at end of input. -/
theorem toPostfix_correct : ∀ p : List Char, shuntRun p = shuntRunSpec p := by
  intro p
  have h : shuntStep = shuntStepSpec := funext fun acc => funext fun c => shuntStep_eq acc c
  simp only [shuntRun, shuntRunSpec, h]

/-- Counterexample to claim C1: for the pattern `a*` and the empty test
string the simulator reports the active set `[2]` (only the start state,
no epsilon closure taken) and the verdict `false`, while the claimed
behavior — active set equal to the epsilon closure of the start state
and verdict true iff it contains an accepting state — yields `[2, 0, 3]`
and `true`. -/
theorem emptyString_ignores_closure_cex :
    simOnCompiled (String.toList "a*") [] = some ([2], false) ∧
    specEmptyStringSim (String.toList "a*") = some ([2, 0, 3], true) := by
  exact ⟨rfl, rfl⟩

/-- Claim C1 as amended: for every successfully compiled pattern, the
simulator on the empty test string short-circuits to the active set
containing exactly the start state (without epsilon closure) and the
verdict `false`, regardless of whether the pattern matches the empty
string. -/
theorem emptyString_sim_amended (p : List Char) (a : Arena) (s e : Nat)
    (_h : compileRegexToNFA p = some (a, s, e)) :
    simulate a s [] = ([s], false) := rfl

theorem emptyString_sim_amended_witness :
    simulate [⟨0, [('a', [1])], false⟩, ⟨1, [], true⟩] 0 [] = ([0], false) :=
  emptyString_sim_amended (String.toList "a") _ 0 1 rfl

/-- Counterexample to claim C2: for the input `a(b` the token loop ends
with two fragments on the stack, yet compilation still returns an
automaton (the most recently pushed fragment) instead of the claimed
no-automaton result. -/
theorem two_fragments_still_compiles_cex :
    (runCompile (String.toList "a(b")).map (fun st => st.stack.length) = some 2 ∧
    (compileRegexToNFA (String.toList "a(b")).isSome = true := by
  exact ⟨rfl, rfl⟩

/-- Claim C2 as amended: compile returns the no-automaton result exactly
when the token loop aborts (operator underflow) or ends with an empty
fragment stack (in particular for an empty stream); otherwise — even when
more than one fragment remains — it returns the most recently pushed
fragment with its end state marked accepting. -/
theorem compile_returns_top_fragment (p : List Char) :
    (runCompile p = none → compileRegexToNFA p = none) ∧
    (∀ st : CompSt, runCompile p = some st → st.stack = [] → compileRegexToNFA p = none) ∧
    (∀ (st : CompSt) (f : Frag) (rest : List Frag),
      runCompile p = some st → st.stack = f :: rest →
      compileRegexToNFA p = some (setAccept st.arena f.e true, f.s, f.e)) := by
  refine ⟨?_, ?_, ?_⟩
  · intro h; simp only [compileRegexToNFA, h]
  · intro st h hs; simp only [compileRegexToNFA, h, hs]
  · intro st f rest h hs; simp only [compileRegexToNFA, h, hs]

theorem compile_returns_top_fragment_witness :
    compileRegexToNFA (String.toList "a") =
      some (setAccept [⟨0, [('a', [1])], false⟩, ⟨1, [], false⟩] 1 true, 0, 1) :=
  (compile_returns_top_fragment (String.toList "a")).2.2
    ⟨[⟨0, [('a', [1])], false⟩, ⟨1, [], false⟩], [⟨0, 1⟩]⟩ ⟨0, 1⟩ [] rfl rfl

theorem foldlM_option_append (f : CompSt → Char → Option CompSt) :
    ∀ (l1 l2 : List Char) (b : CompSt),
      (l1 ++ l2).foldlM f b = (l1.foldlM f b).bind (fun b2 => l2.foldlM f b2) := by
  intro l1
  induction l1 with
  | nil => intro l2 b; rfl
  | cons a l1 ih =>
    intro l2 b
    show (f b a).bind (fun b2 => (l1 ++ l2).foldlM f b2) =
      ((f b a).bind (fun b2 => l1.foldlM f b2)).bind (fun b2 => l2.foldlM f b2)
    cases f b a with
    | none => rfl
    | some b2 => exact ih l2 b2

/-- Claim C3: each of `*`, `|a`, and the empty pattern compiles to the
no-automaton result; an operator token that finds fewer operands on the
fragment stack than it requires makes the step fail, and any such failure
during the token loop makes the whole compilation return the no-automaton
result (there is no uncaught fault: the embedding is total). -/
theorem operand_underflow_no_automaton :
    compileRegexToNFA (String.toList "*") = none ∧
    compileRegexToNFA (String.toList "|a") = none ∧
    compileRegexToNFA (String.toList "") = none ∧
    (∀ st : CompSt, st.stack.length ≤ 1 →
      compileStep st '.' = none ∧ compileStep st '|' = none) ∧
    (∀ st : CompSt, st.stack = [] → compileStep st '*' = none) ∧
    (∀ (p pre post : List Char) (c : Char) (st : CompSt),
      toPostfix p = pre ++ c :: post →
      List.foldlM compileStep (⟨[], []⟩ : CompSt) pre = some st →
      compileStep st c = none → compileRegexToNFA p = none) := by
  refine ⟨rfl, rfl, rfl, ?_, ?_, ?_⟩
  · intro st h
    obtain ⟨a, stk⟩ := st
    cases stk with
    | nil => exact ⟨rfl, rfl⟩
    | cons x rest =>
      cases rest with
      | nil => exact ⟨rfl, rfl⟩
      | cons y rest2 => simp at h
  · intro st h
    obtain ⟨a, stk⟩ := st
    cases stk with
    | nil => rfl
    | cons x rest => simp at h
  · intro p pre post c st hp hfold hstep
    have hrun : runCompile p = none := by
      rw [runCompile, hp, foldlM_option_append, hfold]
      show ((c :: post).foldlM compileStep st) = none
      show (compileStep st c).bind (fun b2 => post.foldlM compileStep b2) = none
      rw [hstep]
      rfl
    simp only [compileRegexToNFA, hrun]

theorem operand_underflow_no_automaton_witness :
    compileStep (⟨[], []⟩ : CompSt) '.' = none ∧
    compileStep (⟨[], []⟩ : CompSt) '*' = none ∧
    compileRegexToNFA (String.toList "*") = none :=
  ⟨(operand_underflow_no_automaton.2.2.2.1 ⟨[], []⟩ (by decide)).1,
   operand_underflow_no_automaton.2.2.2.2.1 ⟨[], []⟩ rfl,
   operand_underflow_no_automaton.2.2.2.2.2 (String.toList "*") [] [] '*' ⟨[], []⟩ rfl rfl rfl⟩

/-- Claim C4: the automaton compiled from `(a|b)*abb` accepts `abb`,
`aababb`, `bbbabb` and `ababb` and rejects `ab`, `abbb`, `a` and the
empty string; for the non-empty inputs the final active set contains an
accepting state exactly for the accepted ones. -/
theorem composite_pattern_verdicts :
    (simOnCompiled (String.toList "(a|b)*abb") (String.toList "abb")).map Prod.snd = some true ∧
    (simOnCompiled (String.toList "(a|b)*abb") (String.toList "aababb")).map Prod.snd = some true ∧
    (simOnCompiled (String.toList "(a|b)*abb") (String.toList "bbbabb")).map Prod.snd = some true ∧
    (simOnCompiled (String.toList "(a|b)*abb") (String.toList "ababb")).map Prod.snd = some true ∧
    (simOnCompiled (String.toList "(a|b)*abb") (String.toList "ab")).map Prod.snd = some false ∧
    (simOnCompiled (String.toList "(a|b)*abb") (String.toList "abbb")).map Prod.snd = some false ∧
    (simOnCompiled (String.toList "(a|b)*abb") (String.toList "a")).map Prod.snd = some false ∧
    (simOnCompiled (String.toList "(a|b)*abb") (String.toList "")).map Prod.snd = some false ∧
    finalActiveAccepting (String.toList "(a|b)*abb") (String.toList "abb") = some true ∧
    finalActiveAccepting (String.toList "(a|b)*abb") (String.toList "aababb") = some true ∧
    finalActiveAccepting (String.toList "(a|b)*abb") (String.toList "bbbabb") = some true ∧
    finalActiveAccepting (String.toList "(a|b)*abb") (String.toList "ababb") = some true ∧
    finalActiveAccepting (String.toList "(a|b)*abb") (String.toList "ab") = some false ∧
    finalActiveAccepting (String.toList "(a|b)*abb") (String.toList "abbb") = some false ∧
    finalActiveAccepting (String.toList "(a|b)*abb") (String.toList "a") = some false := by
  exact ⟨rfl, rfl, rfl, rfl, rfl, rfl, rfl, rfl, rfl, rfl, rfl, rfl, rfl, rfl, rfl⟩

/-- Claim C9: every automaton returned by a successful compile has
exactly one accepting state among the states reachable from its start,
namely the returned fragment's end: the accept flag holds of a state of
the returned arena exactly when its id is the end id, a state with the
end id exists, and the end is reachable from the start. -/
theorem unique_accept_state (p : List Char) (a : Arena) (s e : Nat)
    (h : compileRegexToNFA p = some (a, s, e)) :
    (∀ st ∈ a, st.isAccept = true ↔ st.id = e) ∧ (∃ st ∈ a, st.id = e) ∧ Reach a s e := by
  obtain ⟨cst, f, rest, hrun, hstk, ha, hsv, hev⟩ := compile_inversion h
  obtain ⟨hinv, hreach, hnoacc⟩ := runCompile_good hrun
  have hmem : f ∈ cst.stack := by rw [hstk]; exact List.mem_cons_self _ _
  have hf := hinv.frags f hmem
  subst ha
  subst hsv
  subst hev
  refine ⟨?_, ?_, ?_⟩
  · intro st hst
    simp only [setAccept] at hst
    obtain ⟨s0, hs0, hmap⟩ := List.mem_map.mp hst
    by_cases hid : (s0.id == f.e) = true
    · rw [if_pos hid] at hmap
      rw [← hmap]
      constructor
      · intro _
        simpa using hid
      · intro _
        rfl
    · rw [if_neg hid] at hmap
      rw [← hmap]
      rw [hnoacc s0 hs0]
      constructor
      · intro hc
        exact absurd hc (by simp)
      · intro hc
        exact absurd (by simp [hc] : (s0.id == f.e) = true) hid
  · have hids : IdsOK (setAccept cst.arena f.e true) := ids_setAccept hinv.ids f.e true
    have hlt : f.e < (setAccept cst.arena f.e true).length := by
      rw [length_setAccept]
      exact hf.2
    have hsome := findState_isSome_of_lt hids hlt
    cases hfs : findState (setAccept cst.arena f.e true) f.e with
    | none =>
      rw [hfs] at hsome
      simp at hsome
    | some s0 => exact ⟨s0, List.mem_of_find?_eq_some hfs, findState_id hfs⟩
  · exact reach_mono (fun i c j hj => by rw [succs_setAccept]; exact hj) (hreach f hmem)

/-- Claim C5: consuming a `*` token pops one fragment A, creates the two
fresh states `N` and `N+1` (`N` the previous state count), pushes the
fragment (N, N+1), adds exactly the four epsilon transitions
start→A.start, start→end, A.end→A.start and A.end→end, and clears
A.end's accept flag while leaving every other accept flag unchanged. -/
theorem star_step_correct (st : CompSt) (A : Frag) (rest : List Frag)
    (hstack : st.stack = A :: rest) (hinv : InvB st) :
    compileStep st '*' = some ⟨starArena st.arena A,
      ⟨st.arena.length, st.arena.length + 1⟩ :: rest⟩ ∧
    (starArena st.arena A).length = st.arena.length + 2 ∧
    (∀ i c j, hasEdge (starArena st.arena A) i c j ↔
      (hasEdge st.arena i c j ∨
       (i = st.arena.length ∧ c = 'ε' ∧ (j = A.s ∨ j = st.arena.length + 1)) ∨
       (i = A.e ∧ c = 'ε' ∧ (j = A.s ∨ j = st.arena.length + 1)))) ∧
    isAcceptId (starArena st.arena A) A.e = false ∧
    (∀ i, i ≠ A.e → isAcceptId (starArena st.arena A) i = isAcceptId st.arena i) := by
  have hA := hinv.frags A (by rw [hstack]; exact List.mem_cons_self _ _)
  have hy : A.e < st.arena.length := hA.2
  have i1 : IdsOK (newState (newState st.arena)) := ids_newState (ids_newState hinv.ids)
  have l1 : (newState (newState st.arena)).length = st.arena.length + 2 := by
    rw [length_newState, length_newState]
  have i2 : IdsOK (addTrans (newState (newState st.arena)) st.arena.length 'ε' A.s) :=
    ids_addTrans i1 _ _ _
  have l2 : (addTrans (newState (newState st.arena)) st.arena.length 'ε' A.s).length =
      st.arena.length + 2 := by
    rw [length_addTrans, l1]
  have i3 : IdsOK (addTrans (addTrans (newState (newState st.arena)) st.arena.length 'ε' A.s)
      st.arena.length 'ε' (st.arena.length+1)) := ids_addTrans i2 _ _ _
  have l3 : (addTrans (addTrans (newState (newState st.arena)) st.arena.length 'ε' A.s)
      st.arena.length 'ε' (st.arena.length+1)).length = st.arena.length + 2 := by
    rw [length_addTrans, l2]
  have i4 : IdsOK (setAccept (addTrans (addTrans (newState (newState st.arena))
      st.arena.length 'ε' A.s) st.arena.length 'ε' (st.arena.length+1)) A.e false) :=
    ids_setAccept i3 _ _
  have l4 : (setAccept (addTrans (addTrans (newState (newState st.arena))
      st.arena.length 'ε' A.s) st.arena.length 'ε' (st.arena.length+1)) A.e false).length =
      st.arena.length + 2 := by
    rw [length_setAccept, l3]
  have i5 : IdsOK (addTrans (setAccept (addTrans (addTrans (newState (newState st.arena))
      st.arena.length 'ε' A.s) st.arena.length 'ε' (st.arena.length+1)) A.e false)
      A.e 'ε' A.s) := ids_addTrans i4 _ _ _
  have l5 : (addTrans (setAccept (addTrans (addTrans (newState (newState st.arena))
      st.arena.length 'ε' A.s) st.arena.length 'ε' (st.arena.length+1)) A.e false)
      A.e 'ε' A.s).length = st.arena.length + 2 := by
    rw [length_addTrans, l4]
  have eq_char : ∀ i c, c ≠ 'ε' → succs (starArena st.arena A) i c = succs st.arena i c := by
    intro i c hc
    rw [starArena, succs_addTrans_ne_char _ _ _ _ _ _ hc, succs_addTrans_ne_char _ _ _ _ _ _ hc,
      succs_setAccept, succs_addTrans_ne_char _ _ _ _ _ _ hc,
      succs_addTrans_ne_char _ _ _ _ _ _ hc, succs_newState, succs_newState]
  have eq_N : succs (starArena st.arena A) st.arena.length 'ε' =
      [A.s, st.arena.length + 1] := by
    rw [starArena, succs_addTrans_ne_state _ _ _ _ _ _ (by omega),
      succs_addTrans_ne_state _ _ _ _ _ _ (by omega), succs_setAccept,
      succs_addTrans_same _ _ _ _ (findState_isSome_of_lt i2 (by rw [l2]; omega)),
      succs_addTrans_same _ _ _ _ (findState_isSome_of_lt i1 (by rw [l1]; omega)),
      succs_newState, succs_newState, succs_eq_nil_of_ge hinv.ids (Nat.le_refl _) 'ε']
    rfl
  have eq_y : succs (starArena st.arena A) A.e 'ε' =
      (succs st.arena A.e 'ε' ++ [A.s]) ++ [st.arena.length + 1] := by
    rw [starArena,
      succs_addTrans_same _ _ _ _ (findState_isSome_of_lt i5 (by rw [l5]; omega)),
      succs_addTrans_same _ _ _ _ (findState_isSome_of_lt i4 (by rw [l4]; omega)),
      succs_setAccept, succs_addTrans_ne_state _ _ _ _ _ _ (by omega),
      succs_addTrans_ne_state _ _ _ _ _ _ (by omega), succs_newState, succs_newState]
  have eq_other : ∀ i, i ≠ st.arena.length → i ≠ A.e →
      succs (starArena st.arena A) i 'ε' = succs st.arena i 'ε' := by
    intro i hiN hiY
    rw [starArena, succs_addTrans_ne_state _ _ _ _ _ _ hiY,
      succs_addTrans_ne_state _ _ _ _ _ _ hiY, succs_setAccept,
      succs_addTrans_ne_state _ _ _ _ _ _ hiN, succs_addTrans_ne_state _ _ _ _ _ _ hiN,
      succs_newState, succs_newState]
  refine ⟨compileStep_star hstack, length_starArena st.arena A, ?_, ?_, ?_⟩
  · intro i c j
    by_cases hc : c = 'ε'
    · subst hc
      by_cases hiN : i = st.arena.length
      · subst hiN
        have hbase : succs st.arena st.arena.length 'ε' = [] :=
          succs_eq_nil_of_ge hinv.ids (Nat.le_refl _) 'ε'
        have hne : st.arena.length ≠ A.e := by omega
        rw [hasEdge, eq_N]
        simp [hasEdge, hbase, hne]
      · by_cases hiY : i = A.e
        · subst hiY
          rw [hasEdge, eq_y]
          simp [hasEdge, hiN]
        · rw [hasEdge, eq_other i hiN hiY]
          simp [hasEdge, hiN, hiY]
    · rw [hasEdge, eq_char i c hc]
      simp [hasEdge, hc]
  · rw [starArena, isAcceptId_addTrans, isAcceptId_addTrans, isAcceptId_setAccept_false_self]
  · intro i hi
    rw [starArena, isAcceptId_addTrans, isAcceptId_addTrans,
      isAcceptId_setAccept_other _ _ _ _ hi, isAcceptId_addTrans, isAcceptId_addTrans,
      isAcceptId_newState, isAcceptId_newState]

theorem count_insertConcat (x : Char) (hx : x ≠ '.') :
    ∀ p : List Char, (insertConcat p).count x = p.count x := by
  intro p
  induction p with
  | nil => rfl
  | cons c rest ih =>
    cases rest with
    | nil => rfl
    | cons c2 rest2 =>
      rw [insertConcat]
      have hdot : (if (('.' : Char) == x) = true then 1 else 0) = 0 := by
        have h0 : (('.' : Char) == x) = false := by
          simp
          exact fun hh => hx hh.symm
        rw [h0]
        simp
      by_cases h : (concatLeft c && concatRight c2) = true
      · rw [if_pos h]
        simp only [ih, List.count_cons]
        omega
      · rw [if_neg h]
        simp only [ih, List.count_cons]

theorem count_popParen (x : Char) (hx : x ≠ '(') : ∀ st : List Char,
    (st.takeWhile (fun t => t != '(')).count x +
      ((st.dropWhile (fun t => t != '(')).drop 1).count x = st.count x := by
  intro st
  induction st with
  | nil => rfl
  | cons t rest ih =>
    by_cases ht : (t != '(') = true
    · rw [List.takeWhile_cons, List.dropWhile_cons, if_pos ht, if_pos ht, List.count_cons,
        List.count_cons]
      omega
    · have ht2 : t = '(' := by simpa using ht
      have hx2 : ('(' : Char) ≠ x := fun hh => hx hh.symm
      rw [List.takeWhile_cons, List.dropWhile_cons, if_neg ht, if_neg ht]
      simp [ht2, hx2, List.count_cons]

theorem count_takeDrop (x : Char) (q : Char → Bool) (st : List Char) :
    (st.takeWhile q).count x + (st.dropWhile q).count x = st.count x := by
  conv_rhs => rw [← List.takeWhile_append_dropWhile q st]
  rw [List.count_append]

theorem count_shuntStep (x : Char) (hx1 : x ≠ '(') (hx2 : x ≠ ')') (out st : List Char)
    (c : Char) :
    (shuntStep (out, st) c).1.count x + (shuntStep (out, st) c).2.count x =
      out.count x + st.count x + (if (c == x) = true then 1 else 0) := by
  by_cases h1 : isAlnumChar c = true
  · simp only [shuntStep, if_pos h1]
    rw [List.count_append, List.count_cons, List.count_nil]
    omega
  · by_cases h2 : c = '('
    · subst h2
      simp only [shuntStep, if_neg h1, if_pos (show (('(' == '(') = true) from rfl)]
      rw [List.count_cons]
      omega
    · by_cases h3 : c = ')'
      · subst h3
        simp only [shuntStep, if_neg h1,
          if_neg (show ¬(((')' : Char) == '(') = true) by decide),
          if_pos (show (((')' : Char) == ')') = true) from rfl)]
        rw [List.count_append]
        have hp := count_popParen x hx1 st
        have he : (if ((')' : Char) == x) = true then 1 else 0) = 0 := by
          have h0 : ((')' : Char) == x) = false := by
            simp
            exact fun hh => hx2 hh.symm
          rw [h0]
          simp
        omega
      · simp only [shuntStep, if_neg h1,
          if_neg (show ¬((c == '(') = true) by simp [h2]),
          if_neg (show ¬((c == ')') = true) by simp [h3])]
        rw [List.count_append, List.count_cons]
        have hp := count_takeDrop x (fun t => popCond t c) st
        omega

theorem count_shuntAux (x : Char) (hx1 : x ≠ '(') (hx2 : x ≠ ')') :
    ∀ (p : List Char) (out st : List Char),
      (p.foldl shuntStep (out, st)).1.count x + (p.foldl shuntStep (out, st)).2.count x =
        out.count x + st.count x + p.count x := by
  intro p
  induction p with
  | nil =>
    intro out st
    simp
  | cons c p ih =>
    intro out st
    simp only [List.foldl_cons]
    cases hsp : shuntStep (out, st) c with
    | mk o2 s2 =>
      have key := count_shuntStep x hx1 hx2 out st c
      rw [hsp] at key
      dsimp only at key
      rw [ih o2 s2, List.count_cons]
      omega

theorem count_shuntRun (x : Char) (hx1 : x ≠ '(') (hx2 : x ≠ ')') (p : List Char) :
    (shuntRun p).count x = p.count x := by
  simp only [shuntRun]
  rw [List.count_append]
  have h := count_shuntAux x hx1 hx2 p [] []
  simpa using h

theorem count_toPostfix (x : Char) (hx1 : x ≠ '(') (hx2 : x ≠ ')') (hx3 : x ≠ '.')
    (p : List Char) : (toPostfix p).count x = p.count x := by
  rw [toPostfix, count_shuntRun x hx1 hx2, count_insertConcat x hx3 p]

theorem epsilon_edge_in_compiled {p : List Char} {a : Arena} {s e : Nat}
    (hp : 'ε' ∈ p) (h : compileRegexToNFA p = some (a, s, e)) :
    ∃ i j, hasEdge a i 'ε' j := by
  obtain ⟨cst, f, rest, hrun, hstk, ha, _, _⟩ := compile_inversion h
  have hmem : 'ε' ∈ toPostfix p := by
    have hc : 0 < (toPostfix p).count 'ε' := by
      rw [count_toPostfix 'ε' (by decide) (by decide) (by decide)]
      exact List.count_pos_iff.mpr hp
    exact List.count_pos_iff.mp hc
  obtain ⟨pre, post, hsplit⟩ := List.append_of_mem hmem
  rw [runCompile, hsplit, foldlM_option_append] at hrun
  cases hpre : List.foldlM compileStep (⟨[], []⟩ : CompSt) pre with
  | none =>
    rw [hpre] at hrun
    exact Option.noConfusion hrun
  | some st1 =>
    rw [hpre] at hrun
    have hrun2 : (compileStep st1 'ε').bind (fun st2 => post.foldlM compileStep st2) =
        some cst := hrun
    rw [compileStep_lit (by decide) (by decide) (by decide)] at hrun2
    have hrest : List.foldlM compileStep
        (⟨litArena st1.arena 'ε', ⟨st1.arena.length, st1.arena.length+1⟩ :: st1.stack⟩ : CompSt)
        post = some cst := hrun2
    have hids1 : IdsOK st1.arena :=
      (foldlM_compileStep_pres (fun _ _ _ hc hg => compileStep_good hc hg) pre ⟨[], []⟩ st1
        hpre goodSt_init).1.ids
    have hedge1 : hasEdge (litArena st1.arena 'ε') st1.arena.length 'ε'
        (st1.arena.length+1) := litArena_edge hids1 'ε'
    have hedge2 : hasEdge cst.arena st1.arena.length 'ε' (st1.arena.length+1) :=
      @foldlM_compileStep_pres
        (fun st => hasEdge st.arena st1.arena.length 'ε' (st1.arena.length+1))
        (fun _ _ _ hc hE => compileStep_mono hc hE) post
        ⟨litArena st1.arena 'ε', ⟨st1.arena.length, st1.arena.length+1⟩ :: st1.stack⟩ cst
        hrest hedge1
    refine ⟨st1.arena.length, st1.arena.length+1, ?_⟩
    rw [ha]
    exact hasEdge_setAccept hedge2

theorem mem_foldl_addState (a : Arena) (fuel : Nat) (hf : 1 ≤ fuel) :
    ∀ (l acc : List Nat) (j : Nat), j ∈ l →
      j ∈ l.foldl (fun ac x => addState a fuel x ac) acc := by
  intro l
  induction l with
  | nil =>
    intro acc j hj
    cases hj
  | cons x l ih =>
    intro acc j hj
    rcases List.mem_cons.mp hj with rfl | hj2
    · have hjin : j ∈ addState a fuel j acc := by
        cases fuel with
        | zero => omega
        | succ f =>
          rw [addState_succ]
          by_cases hmem : j ∈ acc
          · rw [if_pos hmem]
            exact hmem
          · rw [if_neg hmem]
            exact subset_foldl_addState a f (fun i2 s2 => subset_addState a f i2 s2) _ _
              (List.mem_append_right _ (by simp))
      exact subset_foldl_addState a fuel (fun i2 s2 => subset_addState a fuel i2 s2) l
        (addState a fuel j acc) hjin
    · exact ih _ j hj2

theorem closure_follows_epsilon {a : Arena} {i j : Nat} (he : hasEdge a i 'ε' j)
    {set : List Nat} (hi : i ∉ set) {fuel : Nat} (hf : 2 ≤ fuel) :
    j ∈ addState a fuel i set := by
  cases fuel with
  | zero => omega
  | succ f =>
    rw [addState_succ, if_neg hi]
    exact mem_foldl_addState a f (by omega) (epsSucc a i) (set ++ [i]) j he

/-- Counterexample to claim C10 as universally stated: the pattern `**ε`
contains the character `ε`, yet its compilation aborts at its very first
postfix token (a `*` with no operand on the stack), so the compiler never
creates any transition and returns no automaton. -/
theorem epsilon_pattern_no_transition_cex :
    'ε' ∈ String.toList "**ε" ∧
    toPostfix (String.toList "**ε") = ['*', 'ε', '*'] ∧
    compileStep ⟨[], []⟩ '*' = none ∧
    compileRegexToNFA (String.toList "**ε") = none := by
  exact ⟨by decide, rfl, rfl, rfl⟩

/-- Claim C10 as amended: every `ε` of the pattern survives to the
postfix stream, and for every pattern containing `ε` whose compilation
returns an automaton, the compiler created a transition whose label is
the distinguished epsilon symbol; the simulator's closure follows any
such transition without consuming input, and in particular for the
pattern `ε` itself the closure of the start state already contains the
accepting end state. -/
theorem epsilon_literal_collision :
    (∀ p : List Char, (toPostfix p).count 'ε' = p.count 'ε') ∧
    (∀ (p : List Char) (a : Arena) (s e : Nat), 'ε' ∈ p →
      compileRegexToNFA p = some (a, s, e) → ∃ i j, hasEdge a i 'ε' j) ∧
    (∀ (a : Arena) (i j : Nat) (set : List Nat) (fuel : Nat),
      hasEdge a i 'ε' j → i ∉ set → 2 ≤ fuel → j ∈ addState a fuel i set) ∧
    compileRegexToNFA (String.toList "ε") =
      some ([⟨0, [('ε', [1])], false⟩, ⟨1, [], true⟩], 0, 1) ∧
    closureOfStart ([⟨0, [('ε', [1])], false⟩, ⟨1, [], true⟩], 0, 1) = [0, 1] ∧
    isAcceptId [⟨0, [('ε', [1])], false⟩, ⟨1, [], true⟩] 1 = true := by
  refine ⟨fun p => count_toPostfix 'ε' (by decide) (by decide) (by decide) p,
    fun p a s e hp h => epsilon_edge_in_compiled hp h,
    fun a i j set fuel he hi hf => closure_follows_epsilon he hi hf,
    rfl, rfl, rfl⟩

theorem epsilon_literal_collision_witness :
    (∃ i j, hasEdge [⟨0, [('ε', [1])], false⟩, ⟨1, [], true⟩] i 'ε' j) ∧
    1 ∈ addState [⟨0, [('ε', [1])], false⟩, ⟨1, [], true⟩] 2 0 [] :=
  ⟨epsilon_literal_collision.2.1 (String.toList "ε")
      [⟨0, [('ε', [1])], false⟩, ⟨1, [], true⟩] 0 1 (by decide) rfl,
   epsilon_literal_collision.2.2.1 [⟨0, [('ε', [1])], false⟩, ⟨1, [], true⟩] 0 1 [] 2
      (by decide) (by decide) (by decide)⟩

theorem star_step_correct_witness :
    compileStep ⟨[⟨0, [('a', [1])], false⟩, ⟨1, [], false⟩], [⟨0, 1⟩]⟩ '*' =
      some ⟨starArena [⟨0, [('a', [1])], false⟩, ⟨1, [], false⟩] ⟨0, 1⟩, [⟨2, 3⟩]⟩ ∧
    hasEdge (starArena [⟨0, [('a', [1])], false⟩, ⟨1, [], false⟩] ⟨0, 1⟩) 2 'ε' 3 ∧
    isAcceptId (starArena [⟨0, [('a', [1])], false⟩, ⟨1, [], false⟩] ⟨0, 1⟩) 1 = false := by
  have h := star_step_correct ⟨[⟨0, [('a', [1])], false⟩, ⟨1, [], false⟩], [⟨0, 1⟩]⟩ ⟨0, 1⟩ []
    rfl ⟨by rfl, by unfold WFArena; decide, by decide⟩
  exact ⟨h.1, (h.2.2.1 2 'ε' 3).mpr (Or.inr (Or.inl ⟨rfl, rfl, Or.inr rfl⟩)), h.2.2.2.1⟩

/-- Claim C8: for every automaton produced by a successful compile and
every input string, the simulation returns an active-state list and a
boolean verdict whose computation is already at its fixed point with fuel
equal to the number of states: giving the recursive closure any more fuel
changes nothing, even in the presence of epsilon cycles, because
already-visited states are never re-expanded.  The same holds for the
epsilon closure of the start state alone. -/
theorem simulation_terminates (p : List Char) (a : Arena) (s e : Nat)
    (h : compileRegexToNFA p = some (a, s, e)) (input : List Char) (k : Nat) :
    simulateFuel a s (a.length + k) input = simulate a s input ∧
    addState a (a.length + k) s [] = addState a a.length s [] := by
  obtain ⟨cst, f, rest, hrun, hstk, ha, hsv, hev⟩ := compile_inversion h
  obtain ⟨hinv, _, _⟩ := runCompile_good hrun
  have hwf : WFArena a := by
    rw [ha]
    exact wf_setAccept hinv.wf f.e true
  have hs : s < a.length := by
    rw [ha, length_setAccept, hsv]
    exact (hinv.frags f (by rw [hstk]; exact List.mem_cons_self _ _)).1
  constructor
  · exact simulateFuel_stable hwf hs (by omega) (by omega) input
  · exact addState_fuel_stable hwf a.length (a.length + k) a.length s [] hs
      (fun x hx => absurd hx (List.not_mem_nil x)) (missCount_le _ _) (by omega) (by omega)

theorem simulation_terminates_witness :
    simulateFuel [⟨0, [('a', [1])], false⟩, ⟨1, [('ε', [0, 3])], false⟩,
        ⟨2, [('ε', [0, 3])], false⟩, ⟨3, [], true⟩] 2 (4 + 3) (String.toList "a") =
      simulate [⟨0, [('a', [1])], false⟩, ⟨1, [('ε', [0, 3])], false⟩,
        ⟨2, [('ε', [0, 3])], false⟩, ⟨3, [], true⟩] 2 (String.toList "a") ∧
    addState [⟨0, [('a', [1])], false⟩, ⟨1, [('ε', [0, 3])], false⟩,
        ⟨2, [('ε', [0, 3])], false⟩, ⟨3, [], true⟩] (4 + 3) 2 [] =
      addState [⟨0, [('a', [1])], false⟩, ⟨1, [('ε', [0, 3])], false⟩,
        ⟨2, [('ε', [0, 3])], false⟩, ⟨3, [], true⟩] 4 2 [] :=
  simulation_terminates (String.toList "a*")
    [⟨0, [('a', [1])], false⟩, ⟨1, [('ε', [0, 3])], false⟩,
      ⟨2, [('ε', [0, 3])], false⟩, ⟨3, [], true⟩] 2 3 rfl (String.toList "a") 3

theorem unique_accept_state_witness :
    (∀ st ∈ ([⟨0, [('a', [1])], false⟩, ⟨1, [], true⟩] : Arena), st.isAccept = true ↔ st.id = 1) ∧
    (∃ st ∈ ([⟨0, [('a', [1])], false⟩, ⟨1, [], true⟩] : Arena), st.id = 1) ∧
    Reach [⟨0, [('a', [1])], false⟩, ⟨1, [], true⟩] 0 1 :=
  unique_accept_state (String.toList "a") [⟨0, [('a', [1])], false⟩, ⟨1, [], true⟩] 0 1 rfl

end RegexAutomata
